import Mathlib

/-!
# BlueNoiseGenerator: energy function and greedy swap optimiser

A shallow embedding of `class BlueNoiseGenerator` of `src/main.cpp`.

Modelling conventions.

* `int` values are integers (`Int`); `/` and `%` of the source are the truncating
  `Int.tdiv` and `Int.tmod`.  The `int` product `_size * _size` of `allocate` is wrapped
  to 32 bits (`wrapInt`), which is what the compiled program does when it overflows.
* `std::vector<uint8_t>` is `List Byte` with `Byte = Fin 256`.
* `pr::Xoshiro128StarStar` lives in `pr.hpp`, outside this repository.  It is a parameter:
  a state type `ρ` and `uniformi : ρ → Nat × ρ`, the drawn number and the next state.
* `double` energies are values of a type `α` with an addition, a zero and a decidable
  `<`; the definitions assume no law of them, so that they cover the rounded sums of the
  program as well as exact sums.  The summand of line 65 is a parameter `term`, applied to
  the two integers the source hands to it.  `contribution` is that summand with the
  `float` constant `2.1f` and the `float` quotient of the source, and with `sqrt`, the
  subtraction and `exp` taken over the real numbers: the rounding of these `double`
  operations is not modelled.  With `α = ℚ` or `α = ℕ` every definition runs.
* `pr::ParallelFor` runs the body once per index and the mutex makes every
  `e += localE` atomic, so one execution of `E()` is an order in which the partial
  sums are merged: `mergePartials`.
-/

namespace BlueNoise

/-- One cell of the mask: `uint8_t`. -/
abbrev Byte := Fin 256

/-- Failures of a call.  `InvalidArgument` and `IndexOutOfRange` are the taxonomy of the
specification (§7); the source defines no error type and never produces them.
`LengthError` is the `std::length_error` that `std::vector::resize` throws when asked for
more than `max_size()` cells; nothing catches it and the program stops. -/
inductive GridError where
  | InvalidArgument
  | IndexOutOfRange
  | LengthError
  deriving DecidableEq, Repr

/-- Data members of `class BlueNoiseGenerator` (lines 124–126). -/
structure BlueNoiseGenerator (ρ : Type) where
  _size : Int
  _values : List Byte
  _random : ρ

/-- The arguments of one `printf( "flipped %f -> %f (%d, %d)\n", ... )` (line 113). -/
structure Flip (α : Type) where
  currentE : α
  newE : α
  a : Nat
  b : Nat

section Energy

variable {ρ α : Type}

/-- Lines 43–54 (and 55–63): the difference `x1 - x0` of one axis, replaced when its
magnitude exceeds `_size / 2`: the operands are exchanged if it is negative, `_size`
is added to `x0`, and the difference is taken again. -/
def wrap (size x0 x1 : Int) : Int :=
  let dx := x1 - x0
  if Int.tdiv size 2 < |dx| then
    let x1s := if dx < 0 then x0 else x1
    let x0s := if dx < 0 then x1 else x0
    let x0w := x0s + size
    x1s - x0w
  else
    dx

/-- Lines 39–63: `dx` of the pair `(i, j)`. -/
def dxOf (size : Int) (i j : Nat) : Int :=
  wrap size (Int.tmod i size) (Int.tmod j size)

/-- Lines 39–63: `dy` of the pair `(i, j)`. -/
def dyOf (size : Int) (i j : Nat) : Int :=
  wrap size (Int.tdiv i size) (Int.tdiv j size)

/-- Line 65, first integer: `dx * dx + dy * dy`. -/
def sqDist (size : Int) (i j : Nat) : Int :=
  dxOf size i j * dxOf size i j + dyOf size i j * dyOf size i j

/-- Line 65, second integer: `(int)_values[i] - (int)_values[j]`. -/
def valueDiff (values : List Byte) (i j : Nat) : Int :=
  ((values.getD i 0).val : Int) - ((values.getD j 0).val : Int)

/-- Line 65: the summand of the pair `(i, j)`. -/
def pairTerm (term : Int → Int → α) (g : BlueNoiseGenerator ρ) (i j : Nat) : α :=
  term (sqDist g._size i j) (valueDiff g._values i j)

/-- The loop of `floorLog2`: halve `n` until it is below 2 and count the halvings; `fuel`
bounds their number. -/
def floorLog2Loop : Nat → Nat → Nat
  | 0, _ => 0
  | fuel + 1, n => if n < 2 then 0 else floorLog2Loop fuel (n / 2) + 1

/-- The position of the leading bit of `n ≥ 1`: the `e` with `2^e ≤ n < 2^(e+1)`. -/
def floorLog2 (n : Nat) : Nat :=
  floorLog2Loop n n

/-- Rounding of the `float` type: the quotient `p / q` of two naturals, `q > 0`, rounded
to the nearest number with a 24-bit significand, ties to the even significand.  The result
`(m, k)` stands for `m · 2^k`.  Exponents stay far inside the range of `float` for every
quotient line 65 forms. -/
def roundFloat (p q : Nat) : Nat × Int :=
  if p = 0 then (0, 0)
  else
    let e0 : Int := (floorLog2 p : Int) - (floorLog2 q : Int)
    let reached : Bool :=
      if 0 ≤ e0 then decide (q * 2 ^ e0.toNat ≤ p) else decide (q ≤ p * 2 ^ (-e0).toNat)
    let k : Int := (if reached then e0 else e0 - 1) - 23
    let a : Nat := if 0 ≤ k then p else p * 2 ^ (-k).toNat
    let b : Nat := if 0 ≤ k then q * 2 ^ k.toNat else q
    if b < 2 * (a % b) ∨ (2 * (a % b) = b ∧ a / b % 2 = 1) then (a / b + 1, k) else (a / b, k)

/-- Line 27: `float sigma_i = 2.1f`, the `float` nearest to 2.1, is `4404019 · 2^-21`
(2.099999904632568359375). -/
def sigma_i : Nat × Int := (4404019, -21)

/-- Line 65, `-( dx * dx + dy * dy ) / sigma_i`: the `int` `-s` is converted to `float`
and divided by `sigma_i` in `float`.  The result `(m, k)` stands for `m · 2^k`. -/
def floatQuotient (s : Int) : Int × Int :=
  let n := roundFloat s.natAbs 1
  let shift : Int := n.2 - sigma_i.2
  let p : Nat := if 0 ≤ shift then n.1 * 2 ^ shift.toNat else n.1
  let q : Nat := if 0 ≤ shift then sigma_i.1 else sigma_i.1 * 2 ^ (-shift).toNat
  let r := roundFloat p q
  (-(Int.sign s) * (r.1 : Int), r.2)

/-- The real number `m · 2^k` of a `float` `(m, k)`. -/
noncomputable def floatValue (x : Int × Int) : ℝ :=
  (x.1 : ℝ) * (2 : ℝ) ^ x.2

/-- Line 65, the summand:
`exp( -( dx * dx + dy * dy ) / sigma_i - sqrt( fabs( v_i - v_j ) ) )` with `s` the sum of
squares and `d` the difference of the two cells.  The quotient is the `float` quotient by
`sigma_i = 2.1f`; `sqrt`, the subtraction and `exp` are taken over the reals. -/
noncomputable def contribution (s d : Int) : ℝ :=
  Real.exp (floatValue (floatQuotient s) - Real.sqrt |(d : ℝ)|)

variable [Add α] [Zero α]

/-- Lines 32–66: the loop over `j`, with the `break` at `i <= j`.  `fuel` bounds the
number of iterations; `localE` starts it with as many as the vector has cells. -/
def innerLoop (term : Int → Int → α) (g : BlueNoiseGenerator ρ) (i : Nat) :
    Nat → Nat → α → α
  | 0, _, localE => localE
  | fuel + 1, j, localE =>
    if j < g._values.length then
      if i ≤ j then localE
      else innerLoop term g i fuel (j + 1) (localE + pairTerm term g i j)
    else localE

/-- Lines 31–66: the partial sum of the outer index `i`. -/
def localE (term : Int → Int → α) (g : BlueNoiseGenerator ρ) (i : Nat) : α :=
  innerLoop term g i g._values.length 0 0

/-- Lines 25, 67–68: `e = 0`, then `e += localE` once per index, in the order in which
the workers reach the lock. -/
def mergePartials (term : Int → Int → α) (g : BlueNoiseGenerator ρ) (order : List Nat) : α :=
  order.foldl (fun e i => e + localE term g i) 0

/-- Lines 23–72: `E()`, the merge taken in index order. -/
def E (term : Int → Int → α) (g : BlueNoiseGenerator ρ) : α :=
  mergePartials term g (List.range g._values.length)

end Energy

section Optimizer

variable {ρ α : Type}

/-- Lines 109 and 118: `std::swap( _values[a], _values[b] )`. -/
def swapValues (values : List Byte) (a b : Nat) : List Byte :=
  (values.set a (values.getD b 0)).set b (values.getD a 0)

/-- State of one `step()` call inside its loop: the object, the local `currentE`, and two
observers, the `printf` lines so far and the number of `E()` calls so far. -/
structure StepState (ρ α : Type) where
  gen : BlueNoiseGenerator ρ
  currentE : α
  flips : List (Flip α)
  evals : Nat

variable [Add α] [Zero α] [LT α] [DecidableRel (fun a b : α => a < b)]

/-- Lines 102–119: one pass of the loop body.  `none` is the division by zero of
`% _values.size()` on an empty vector. -/
def trial (uniformi : ρ → Nat × ρ) (term : Int → Int → α) (s : StepState ρ α) :
    Option (StepState ρ α) :=
  if s.gen._values.length = 0 then none
  else
    let d1 := uniformi s.gen._random
    let a := d1.1 % s.gen._values.length
    let d2 := uniformi d1.2
    let b := d2.1 % s.gen._values.length
    if a = b then
      some { s with gen := { s.gen with _random := d2.2 } }
    else
      let swapped : BlueNoiseGenerator ρ :=
        { s.gen with _values := swapValues s.gen._values a b, _random := d2.2 }
      let newE := E term swapped
      if newE < s.currentE then
        some { gen := swapped, currentE := newE,
               flips := s.flips ++ [⟨s.currentE, newE, a, b⟩], evals := s.evals + 1 }
      else
        some { gen := { swapped with _values := swapValues swapped._values a b },
               currentE := s.currentE, flips := s.flips, evals := s.evals + 1 }

/-- Lines 100–120: `n` passes of the loop. -/
def trials (uniformi : ρ → Nat × ρ) (term : Int → Int → α) :
    Nat → StepState ρ α → Option (StepState ρ α)
  | 0, s => some s
  | n + 1, s => (trial uniformi term s).bind (trials uniformi term n)

/-- Lines 99–120: `step()` with its observers: the baseline `E()` and 16 passes. -/
def stepRun (uniformi : ρ → Nat × ρ) (term : Int → Int → α) (g : BlueNoiseGenerator ρ) :
    Option (StepState ρ α) :=
  trials uniformi term 16 { gen := g, currentE := E term g, flips := [], evals := 1 }

/-- Lines 97–121: `step()`, the object it leaves. -/
def step (uniformi : ρ → Nat × ρ) (term : Int → Int → α) (g : BlueNoiseGenerator ρ) :
    Option (BlueNoiseGenerator ρ) :=
  (stepRun uniformi term g).map (fun s => s.gen)

/-- The calls `step(); step(); ...`, `k` of them (the loop of `main`, line 157). -/
def steps (uniformi : ρ → Nat × ρ) (term : Int → Int → α) :
    Nat → BlueNoiseGenerator ρ → Option (BlueNoiseGenerator ρ)
  | 0, g => some g
  | k + 1, g => (step uniformi term g).bind (steps uniformi term k)

end Optimizer

section Allocate

variable {ρ : Type}

/-- Line 15, `std::vector::resize( n )`: the first `n` cells are kept, new cells are zero. -/
def resize (values : List Byte) (n : Nat) : List Byte :=
  values.take n ++ List.replicate (n - values.length) 0

/-- Lines 18–21: the fill loop, `_values[i] = random.uniformi() % 256`. -/
def fillLoop (uniformi : ρ → Nat × ρ) : Nat → Nat → List Byte → ρ → List Byte
  | 0, _, values, _ => values
  | fuel + 1, i, values, random =>
    if i < values.length then
      let d := uniformi random
      fillLoop uniformi fuel (i + 1)
        (values.set i ⟨d.1 % 256, Nat.mod_lt d.1 (by decide)⟩) d.2
    else values

/-- The value of an `int` expression whose exact value is `x`: `x` itself when it lies
between `INT_MIN` and `INT_MAX`, and otherwise `x` wrapped to 32 bits in two's complement,
which is what the compiled multiplication leaves (the overflow is undefined behaviour in
C++). -/
def wrapInt (x : Int) : Int :=
  (x + 2147483648) % 4294967296 - 2147483648

/-- Lines 12–22: `allocate( size )`.  `fresh` is the state of a default-constructed
generator (line 17).  The source has no guard and no error code of its own.  The argument
of `resize` is the `int` product `_size * _size` converted to `size_t`: a negative
product, which only an overflow gives, becomes a count of more than `2^63` cells and
`resize` throws `std::length_error`; otherwise the call returns normally. -/
def allocate (uniformi : ρ → Nat × ρ) (fresh : ρ) (g : BlueNoiseGenerator ρ) (size : Int) :
    Except GridError (BlueNoiseGenerator ρ) :=
  let product := wrapInt (size * size)
  if product < 0 then Except.error GridError.LengthError
  else
    let values := resize g._values product.toNat
    Except.ok { _size := size,
                _values := fillLoop uniformi values.length 0 values fresh,
                _random := g._random }

/-- The `k`-th number (from 0) a generator in state `r` draws. -/
def draw (uniformi : ρ → Nat × ρ) (r : ρ) : Nat → Nat
  | 0 => (uniformi r).1
  | k + 1 => draw uniformi (uniformi r).2 k

end Allocate

/-- A small linear congruential generator, an instance of the generator parameter used
for the concrete runs below. -/
def lcg (s : Nat) : Nat × Nat :=
  ((s * 1103515245 + 12345) / 65536 % 4294967296, (s * 1103515245 + 12345) % 4294967296)

/-- The 2×2 fixture of the specification: storage `[10, 20, 30, 40]`. -/
def fixture2 : BlueNoiseGenerator Nat :=
  { _size := 2, _values := [10, 20, 30, 40], _random := 1 }

/-! ## Reference definitions, following the words of the specification -/

/-- Specification §2 and §4.3, ToroidalMetric: the minimum wrap-around distance of two
coordinates on an axis of period `N`, `min(|b - a|, N - |b - a|)`. -/
def torusDist (N a b : Nat) : Nat :=
  min (Int.natAbs ((b : Int) - a)) (N - Int.natAbs ((b : Int) - a))

/-- Specification §4.4: the contribution of the cells `i` and `j`, at positions
`(i mod N, i div N)` and `(j mod N, j div N)`, with `σ = 2.1`. -/
noncomputable def refContribution (N : Nat) (values : List Byte) (i j : Nat) : ℝ :=
  Real.exp (-(((torusDist N (i % N) (j % N)) ^ 2 + (torusDist N (i / N) (j / N)) ^ 2 : Nat) : ℝ) / 2.1
    - Real.sqrt |((values.getD i 0).val : ℝ) - ((values.getD j 0).val : ℝ)|)

/-- Specification §4.4 with the summand of the source: the contribution of the cells `i`
and `j` of a grid of size `N`, `term` applied to the squared minimum wrap-around distance
of the two positions and to the difference of the two values. -/
def refPairTerm {α : Type} (term : Int → Int → α) (N : Nat) (values : List Byte)
    (i j : Nat) : α :=
  term ((torusDist N (i % N) (j % N) ^ 2 + torusDist N (i / N) (j / N) ^ 2 : Nat) : Int)
    (valueDiff values i j)

/-- Specification §4.4: the index pairs `(i, j)` with `j < i < M`. -/
def pairIndices (M : Nat) : Finset (Nat × Nat) :=
  (Finset.range M ×ˢ Finset.range M).filter (fun p => p.2 < p.1)

/-- Specification §4.4: the total energy, the sum of the contributions of all pairs
with `j < i`. -/
noncomputable def refEnergy (N : Nat) (values : List Byte) : ℝ :=
  ∑ p in pairIndices values.length, refContribution N values p.1 p.2

/-- Specification §8, "a straightforward single-threaded summation": two nested loops
that add every pair with `j < i` to one accumulator. -/
def sequentialE {ρ α : Type} [Add α] [Zero α] (term : Int → Int → α)
    (g : BlueNoiseGenerator ρ) : α :=
  (List.range g._values.length).foldl
    (fun e i => (List.range i).foldl (fun e2 j => e2 + pairTerm term g i j) e) 0

/-- Specification §8, translation: the coordinate `(x + s) mod N`. -/
def shiftCoord (N : Nat) (s : Int) (x : Nat) : Nat :=
  (((x : Int) + s) % (N : Int)).toNat

/-- Specification §8, translation: the index of the cell `((x+sx) mod N, (y+sy) mod N)`
to which the cell `k = y·N + x` moves. -/
def shiftIndex (N : Nat) (sx sy : Int) (k : Nat) : Nat :=
  shiftCoord N sy (k / N) * N + shiftCoord N sx (k % N)

/-! ## Images and the two `apply` overloads -/

section Export

variable {ρ σ : Type}

/-- Modelled from the spec: the image classes `pr::Image2DMono8` and `pr::Image2DRGBA32`
of `pr.hpp`, a header outside this repository.  An image has a width, a height and one
sample per position; `sample x y` is what `image( x, y )` reads. -/
structure Image2D (σ : Type) where
  width : Int
  height : Int
  sample : Nat → Nat → σ

/-- Modelled from the spec: the call `image.allocate( w, h )` of `pr.hpp`, which resizes
the target to `w × h` samples.  The samples it leaves are `blank`; nothing is assumed
about them. -/
def Image2D.allocate (blank : Nat → Nat → σ) (w h : Int) : Image2D σ :=
  { width := w, height := h, sample := blank }

/-- Modelled from the spec: the assignment `image( x, y ) = v` of `pr.hpp`; the sample at
`(x, y)` becomes `v` and no other sample changes. -/
def Image2D.assign (image : Image2D σ) (x y : Nat) (v : σ) : Image2D σ :=
  { image with sample := fun x2 y2 => if x2 = x ∧ y2 = y then v else image.sample x2 y2 }

/-- The four channels of a `glm::vec4`.  Every number the source stores in one is an
integer between 0 and 255, which `float` holds exactly; channels are rationals. -/
structure Vec4 where
  x : ℚ
  y : ℚ
  z : ℚ
  w : ℚ
  deriving DecidableEq

/-- Lines 76–83 and 88–94: `for j < _size`, `for i < _size`, with `body i j` inside. -/
def applyLoops (size : Int) (body : Nat → Nat → Image2D σ → Image2D σ)
    (image : Image2D σ) : Image2D σ :=
  (List.range size.toNat).foldl
    (fun img j => (List.range size.toNat).foldl (fun img2 i => body i j img2) img) image

/-- Line 80 and line 92: the cell `_values[_size * j + i]`. -/
def cellAt (g : BlueNoiseGenerator ρ) (i j : Nat) : Byte :=
  g._values.getD (g._size * (j : Int) + (i : Int)).toNat 0

/-- Lines 85–95: `apply( pr::Image2DMono8& image ) const`.  The result is the object after
the call and the image after the call. -/
def applyMono8 (blank : Nat → Nat → Byte) (g : BlueNoiseGenerator ρ) :
    BlueNoiseGenerator ρ × Image2D Byte :=
  (g, applyLoops g._size (fun i j img => img.assign i j (cellAt g i j))
        (Image2D.allocate blank g._size g._size))

/-- Lines 73–84: `apply( pr::Image2DRGBA32& image ) const`, with `float value` the cell
and `glm::vec4( value, value, value, 1.0f )` the sample. -/
def applyRGBA32 (blank : Nat → Nat → Vec4) (g : BlueNoiseGenerator ρ) :
    BlueNoiseGenerator ρ × Image2D Vec4 :=
  (g, applyLoops g._size
        (fun i j img =>
          let value : ℚ := ((cellAt g i j).val : ℚ)
          img.assign i j ⟨value, value, value, 1⟩)
        (Image2D.allocate blank g._size g._size))

end Export

/-- Lines 102–103: the indices `a` and `b` one pass of the loop of `step()` computes in
state `g`, `uniformi() % _values.size()` twice. -/
def drawIndices {ρ : Type} (uniformi : ρ → Nat × ρ) (g : BlueNoiseGenerator ρ) : Nat × Nat :=
  ((uniformi g._random).1 % g._values.length,
   (uniformi (uniformi g._random).2).1 % g._values.length)

/-- Lines 102–109: the object after the `std::swap` of line 109 of the pass that starts
in state `g`, the generator left aside (`E()` does not read it). -/
def swappedGrid {ρ : Type} (uniformi : ρ → Nat × ρ) (g : BlueNoiseGenerator ρ) :
    BlueNoiseGenerator ρ :=
  { g with _values := swapValues g._values (drawIndices uniformi g).1 (drawIndices uniformi g).2 }

/-! ## Lists: the swap of two cells -/

theorem swapValues_length (l : List Byte) (a b : Nat) :
    (swapValues l a b).length = l.length := by
  simp [swapValues]

theorem swapValues_perm (l : List Byte) (a b : Nat) (ha : a < l.length) (hb : b < l.length) :
    (swapValues l a b).Perm l := by
  rw [List.perm_iff_count]
  intro x
  have hb' : b < (l.set a (l.getD b 0)).length := by simpa using hb
  have hget : (l.set a (l.getD b 0))[b] = l[b] := by
    rw [List.getElem_set]
    split
    · rw [List.getD_eq_getElem l 0 hb]
    · rfl
  unfold swapValues
  rw [List.count_set _ _ _ _ hb', List.count_set _ _ _ _ ha, hget,
    List.getD_eq_getElem l 0 hb, List.getD_eq_getElem l 0 ha]
  have h1 : (if (l[a] == x) = true then 1 else 0) ≤ List.count x l := by
    split
    · rename_i h
      have hx : l[a] = x := by simpa using h
      exact List.count_pos_iff.mpr (hx ▸ List.getElem_mem ha)
    · exact Nat.zero_le _
  omega

theorem swapValues_swapValues (l : List Byte) (a b : Nat) (ha : a < l.length)
    (hb : b < l.length) : swapValues (swapValues l a b) a b = l := by
  apply List.ext_getElem
  · simp [swapValues]
  · intro n h1 h2
    have hla : a < (swapValues l a b).length := by simpa [swapValues] using ha
    have hlb : b < (swapValues l a b).length := by simpa [swapValues] using hb
    have e1 : (swapValues l a b).getD a 0 = l.getD b 0 := by
      rw [List.getD_eq_getElem _ 0 hla]
      simp only [swapValues, List.getElem_set]
      split
      · rename_i h
        rw [h]
      · simp
    have e2 : (swapValues l a b).getD b 0 = l.getD a 0 := by
      rw [List.getD_eq_getElem _ 0 hlb]
      simp only [swapValues, List.getElem_set]
      simp
    have key : swapValues (swapValues l a b) a b
        = (((l.set a (l.getD b 0)).set b (l.getD a 0)).set a (l.getD a 0)).set b (l.getD b 0) := by
      have h0 : ∀ m : List Byte, swapValues m a b = (m.set a (m.getD b 0)).set b (m.getD a 0) :=
        fun _ => rfl
      rw [h0 (swapValues l a b), e1, e2, h0 l]
    have ga : l.getD a 0 = l[a] := List.getD_eq_getElem l 0 ha
    have gb : l.getD b 0 = l[b] := List.getD_eq_getElem l 0 hb
    simp only [key, List.getElem_set]
    by_cases hbn : b = n
    · subst hbn
      simp only [if_true]
      by_cases hab : a = b
      · subst hab; exact gb
      · exact gb
    · by_cases han : a = n
      · subst han
        rw [if_neg hbn, if_pos rfl]
        exact ga
      · simp [hbn, han]

/-! ## The energy reads the size and the cells only -/

theorem innerLoop_congr {ρ α : Type} [Add α] (term : Int → Int → α)
    (g h : BlueNoiseGenerator ρ)
    (hs : g._size = h._size) (hv : g._values = h._values) (i : Nat) :
    ∀ (fuel j : Nat) (acc : α),
      innerLoop term g i fuel j acc = innerLoop term h i fuel j acc := by
  intro fuel
  induction fuel with
  | zero =>
    intro j acc
    rfl
  | succ fuel ih =>
    intro j acc
    rw [innerLoop, innerLoop, ih, pairTerm, pairTerm, hs, hv]

/-- The value of `E()` depends on `_size` and `_values` only, whatever the arithmetic. -/
theorem E_congr {ρ α : Type} [Add α] [Zero α] (term : Int → Int → α)
    (g h : BlueNoiseGenerator ρ)
    (hs : g._size = h._size) (hv : g._values = h._values) : E term g = E term h := by
  have hl : ∀ i, localE term g i = localE term h i := by
    intro i
    rw [localE, localE, hv]
    exact innerLoop_congr term g h hs hv i _ _ _
  have hf : (fun (e : α) (i : Nat) => e + localE term g i)
      = (fun e i => e + localE term h i) := by
    funext e i
    rw [hl i]
  rw [E, E, mergePartials, mergePartials, hf, hv]

/-! ## The energy as a double sum -/

section EnergyLemmas

variable {ρ α : Type} [LinearOrderedAddCommMonoid α]

theorem innerLoop_eq (term : Int → Int → α) (g : BlueNoiseGenerator ρ) (i : Nat) :
    ∀ (fuel j : Nat) (acc : α), j ≤ min i g._values.length →
      min i g._values.length ≤ j + fuel →
      innerLoop term g i fuel j acc
        = acc + ∑ k in Finset.Ico j (min i g._values.length), pairTerm term g i k := by
  intro fuel
  induction fuel with
  | zero =>
    intro j acc h1 h2
    have hj : j = min i g._values.length := by omega
    simp [innerLoop, ← hj]
  | succ fuel ih =>
    intro j acc h1 h2
    unfold innerLoop
    by_cases hjM : j < g._values.length
    · rw [if_pos hjM]
      by_cases hij : i ≤ j
      · rw [if_pos hij]
        have hj : min i g._values.length ≤ j := by omega
        rw [Finset.Ico_eq_empty_of_le hj]
        simp
      · rw [if_neg hij]
        have hlt : j < min i g._values.length := by
          rw [Nat.lt_min]; omega
        rw [ih (j + 1) _ (by omega) (by omega), Finset.sum_eq_sum_Ico_succ_bot hlt, add_assoc]
    · rw [if_neg hjM]
      have hj : min i g._values.length ≤ j := by omega
      rw [Finset.Ico_eq_empty_of_le hj]
      simp

theorem localE_eq (term : Int → Int → α) (g : BlueNoiseGenerator ρ) (i : Nat) :
    localE term g i = ∑ j in Finset.range (min i g._values.length), pairTerm term g i j := by
  unfold localE
  rw [innerLoop_eq term g i _ 0 0 (Nat.zero_le _) (by omega), zero_add, Finset.range_eq_Ico]

theorem foldl_add_eq (f : Nat → α) (l : List Nat) (a : α) :
    l.foldl (fun e i => e + f i) a = a + (l.map f).sum := by
  induction l generalizing a with
  | nil => simp
  | cons x xs ih => simp [ih, add_assoc]

theorem mergePartials_eq (term : Int → Int → α) (g : BlueNoiseGenerator ρ) (order : List Nat) :
    mergePartials term g order = (order.map (localE term g)).sum := by
  unfold mergePartials
  rw [foldl_add_eq (localE term g) order 0, zero_add]

theorem sum_map_range (f : Nat → α) (n : Nat) :
    ((List.range n).map f).sum = ∑ i in Finset.range n, f i := by
  induction n with
  | zero => simp
  | succ n ih => rw [List.sum_range_succ, Finset.sum_range_succ, ih]

/-- The value of `E()` is the double sum over `j < i < M`. -/
theorem E_eq_sum (term : Int → Int → α) (g : BlueNoiseGenerator ρ) :
    E term g = ∑ i in Finset.range g._values.length, ∑ j in Finset.range i,
      pairTerm term g i j := by
  unfold E
  rw [mergePartials_eq, sum_map_range]
  apply Finset.sum_congr rfl
  intro i hi
  rw [localE_eq, Nat.min_eq_left (Nat.le_of_lt (Finset.mem_range.mp hi))]

theorem E_nonneg_of_term (term : Int → Int → α) (hterm : ∀ s d, 0 ≤ term s d)
    (g : BlueNoiseGenerator ρ) : 0 ≤ E term g := by
  rw [E_eq_sum]
  exact Finset.sum_nonneg (fun i _ => Finset.sum_nonneg (fun j _ => hterm _ _))

end EnergyLemmas

/-! ## The loop of `step()` -/

section OptimizerLemmas

variable {ρ α : Type} [Preorder α] [DecidableRel (fun a b : α => a < b)] [Add α] [Zero α]

/-- One pass on a non-empty vector returns, permutes the cells, keeps `_size`, and keeps
`currentE` equal to the energy of the grid without raising it. -/
theorem trial_spec (uniformi : ρ → Nat × ρ) (term : Int → Int → α) (s : StepState ρ α)
    (hne : s.gen._values.length ≠ 0) :
    ∃ s', trial uniformi term s = some s' ∧ s'.gen._values.Perm s.gen._values ∧
      s'.gen._size = s.gen._size ∧
      (s.currentE = E term s.gen → s'.currentE = E term s'.gen ∧ s'.currentE ≤ s.currentE) := by
  have hpos : 0 < s.gen._values.length := Nat.pos_of_ne_zero hne
  have ha := Nat.mod_lt (uniformi s.gen._random).1 hpos
  have hb := Nat.mod_lt (uniformi (uniformi s.gen._random).2).1 hpos
  unfold trial
  rw [if_neg hne]
  simp only []
  split
  · refine ⟨_, rfl, List.Perm.refl _, rfl, ?_⟩
    intro h
    exact ⟨h.trans (E_congr term _ _ rfl rfl), le_refl _⟩
  · split
    · rename_i hlt
      refine ⟨_, rfl, swapValues_perm _ _ _ ha hb, rfl, ?_⟩
      intro _
      exact ⟨rfl, le_of_lt hlt⟩
    · refine ⟨_, rfl, ?_, rfl, ?_⟩
      · simp only []
        rw [swapValues_swapValues _ _ _ ha hb]
      · intro h
        refine ⟨?_, le_refl _⟩
        simp only []
        rw [h]
        exact E_congr term _ _ rfl (swapValues_swapValues _ _ _ ha hb).symm

theorem trials_spec (uniformi : ρ → Nat × ρ) (term : Int → Int → α) (n : Nat) :
    ∀ s : StepState ρ α, s.gen._values.length ≠ 0 →
    ∃ s', trials uniformi term n s = some s' ∧ s'.gen._values.Perm s.gen._values ∧
      s'.gen._size = s.gen._size ∧
      (s.currentE = E term s.gen → s'.currentE = E term s'.gen ∧ s'.currentE ≤ s.currentE) := by
  induction n with
  | zero =>
    intro s _
    exact ⟨s, rfl, List.Perm.refl _, rfl, fun h => ⟨h, le_refl _⟩⟩
  | succ n ih =>
    intro s hne
    obtain ⟨s1, h1, p1, z1, e1⟩ := trial_spec uniformi term s hne
    have hne1 : s1.gen._values.length ≠ 0 := by rw [p1.length_eq]; exact hne
    obtain ⟨s2, h2, p2, z2, e2⟩ := ih s1 hne1
    refine ⟨s2, ?_, p2.trans p1, z2.trans z1, ?_⟩
    · simp [trials, h1, h2]
    · intro h
      obtain ⟨a1, b1⟩ := e1 h
      obtain ⟨a2, b2⟩ := e2 a1
      exact ⟨a2, le_trans b2 b1⟩

/-- One `step()` on a non-empty vector returns a permutation of the cells whose energy
is not above the energy at entry. -/
theorem step_spec (uniformi : ρ → Nat × ρ) (term : Int → Int → α) (g : BlueNoiseGenerator ρ)
    (hne : g._values ≠ []) :
    ∃ g', step uniformi term g = some g' ∧ g'._values.Perm g._values ∧
      g'._size = g._size ∧ E term g' ≤ E term g := by
  have hlen : g._values.length ≠ 0 := by
    intro h
    exact hne (List.length_eq_zero.mp h)
  obtain ⟨s', h1, p1, z1, e1⟩ :=
    trials_spec uniformi term 16 { gen := g, currentE := E term g, flips := [], evals := 1 } hlen
  obtain ⟨a1, b1⟩ := e1 rfl
  refine ⟨s'.gen, ?_, p1, z1, ?_⟩
  · simp [step, stepRun, h1]
  · rw [← a1]
    exact b1

theorem steps_spec (uniformi : ρ → Nat × ρ) (term : Int → Int → α) (k : Nat) :
    ∀ g : BlueNoiseGenerator ρ, g._values ≠ [] →
    ∃ g', steps uniformi term k g = some g' ∧ g'._values.Perm g._values ∧
      g'._size = g._size ∧ E term g' ≤ E term g := by
  induction k with
  | zero =>
    intro g _
    exact ⟨g, rfl, List.Perm.refl _, rfl, le_refl _⟩
  | succ k ih =>
    intro g hne
    obtain ⟨g1, h1, p1, z1, e1⟩ := step_spec uniformi term g hne
    have hne1 : g1._values ≠ [] := by
      intro h
      rw [h] at p1
      exact hne (List.Perm.nil_eq p1).symm
    obtain ⟨g2, h2, p2, z2, e2⟩ := ih g1 hne1
    exact ⟨g2, by simp [steps, h1, h2], p2.trans p1, z2.trans z1, le_trans e2 e1⟩

end OptimizerLemmas

/-! ## The wrapped difference -/

/-- The wrapped difference of two coordinates in `[0, N)`: the raw difference when its
magnitude is at most `N / 2`, otherwise the negative number of magnitude `N - |b - a|`. -/
theorem wrap_eq (N a b : Nat) :
    wrap N a b = if N / 2 < Int.natAbs ((b : Int) - a)
      then -((N : Int) - Int.natAbs ((b : Int) - a)) else (b : Int) - a := by
  unfold wrap
  simp only []
  rw [Int.tdiv_eq_ediv (Int.ofNat_nonneg N) (by decide), ← Int.natCast_natAbs ((b : Int) - a)]
  split_ifs <;> omega

theorem wrap_mul_self (N a b : Nat) (ha : a < N) (hb : b < N) :
    wrap N a b * wrap N a b = ((torusDist N a b ^ 2 : Nat) : Int) := by
  rw [wrap_eq N a b]
  unfold torusDist
  split_ifs with h
  · have e : min (Int.natAbs ((b : Int) - a)) (N - Int.natAbs ((b : Int) - a))
        = N - Int.natAbs ((b : Int) - a) := by omega
    have e2 : (((N - Int.natAbs ((b : Int) - a) : Nat)) : Int)
        = (N : Int) - Int.natAbs ((b : Int) - a) := by omega
    rw [e, sq, Nat.cast_mul, e2]
    ring
  · have e : min (Int.natAbs ((b : Int) - a)) (N - Int.natAbs ((b : Int) - a))
        = Int.natAbs ((b : Int) - a) := by omega
    rw [e, sq, Nat.cast_mul, Int.natAbs_mul_self']

/-! ## The source summand and the reference contribution -/

theorem tmod_natCast (i N : Nat) : Int.tmod (i : Int) (N : Int) = ((i % N : Nat) : Int) := by
  rw [Int.tmod_eq_emod (Int.ofNat_nonneg i) (Int.ofNat_nonneg N), Int.natCast_mod]

theorem tdiv_natCast (i N : Nat) : Int.tdiv (i : Int) (N : Int) = ((i / N : Nat) : Int) := by
  rw [Int.tdiv_eq_ediv (Int.ofNat_nonneg i) (Int.ofNat_nonneg N), Int.natCast_div]

theorem sqDist_eq (N i j : Nat) (hN : 0 < N) (hi : i < N * N) (hj : j < N * N) :
    sqDist N i j
      = ((torusDist N (i % N) (j % N) ^ 2 + torusDist N (i / N) (j / N) ^ 2 : Nat) : Int) := by
  unfold sqDist dxOf dyOf
  rw [tmod_natCast, tmod_natCast, tdiv_natCast, tdiv_natCast,
    wrap_mul_self N _ _ (Nat.mod_lt i hN) (Nat.mod_lt j hN),
    wrap_mul_self N _ _ (Nat.div_lt_of_lt_mul hi) (Nat.div_lt_of_lt_mul hj), Nat.cast_add]

/-- The summand the source adds for two cells of a grid of size `N` is the summand of the
squared minimum wrap-around distance, whatever the summand function. -/
theorem pairTerm_eq_ref {ρ α : Type} (term : Int → Int → α) (g : BlueNoiseGenerator ρ)
    (N i j : Nat) (hN : 0 < N) (hsize : g._size = N) (hi : i < N * N) (hj : j < N * N) :
    pairTerm term g i j = refPairTerm term N g._values i j := by
  unfold pairTerm refPairTerm
  rw [hsize, sqDist_eq N i j hN hi hj]

theorem valueDiff_comm (values : List Byte) (i j : Nat) :
    valueDiff values j i = -valueDiff values i j := by
  unfold valueDiff
  ring

theorem contribution_neg (s d : Int) : contribution s (-d) = contribution s d := by
  unfold contribution
  rw [Int.cast_neg, abs_neg]

/-! ## Sums over the pairs `j < i` -/

section PairSums

variable {β : Type} [AddCommMonoid β]

theorem sum_pairIndices (M : Nat) (f : Nat → Nat → β) :
    ∑ i in Finset.range M, ∑ j in Finset.range i, f i j
      = ∑ p in pairIndices M, f p.1 p.2 := by
  unfold pairIndices
  rw [Finset.sum_filter, Finset.sum_product]
  apply Finset.sum_congr rfl
  intro i hi
  rw [← Finset.sum_filter]
  apply Finset.sum_congr _ (fun _ _ => rfl)
  ext j
  simp only [Finset.mem_range, Finset.mem_filter]
  have := Finset.mem_range.mp hi
  omega

end PairSums

theorem card_pairIndices (M : Nat) : (pairIndices M).card = M * (M - 1) / 2 := by
  rw [Finset.card_eq_sum_ones, ← sum_pairIndices M (fun _ _ => 1)]
  simp only [Finset.sum_const, Finset.card_range, smul_eq_mul, mul_one]
  exact Finset.sum_range_id M

theorem foldl_range_add_eq {α : Type} [LinearOrderedAddCommMonoid α] (f : Nat → α) (n : Nat)
    (a : α) : (List.range n).foldl (fun e j => e + f j) a = a + ∑ j in Finset.range n, f j := by
  rw [foldl_add_eq, sum_map_range]

theorem sequentialE_eq_sum {ρ α : Type} [LinearOrderedAddCommMonoid α] (term : Int → Int → α)
    (g : BlueNoiseGenerator ρ) :
    sequentialE term g = ∑ i in Finset.range g._values.length, ∑ j in Finset.range i,
      pairTerm term g i j := by
  unfold sequentialE
  have h : (fun (e : α) (i : Nat) =>
      (List.range i).foldl (fun e2 j => e2 + pairTerm term g i j) e)
      = (fun e i => e + ∑ j in Finset.range i, pairTerm term g i j) := by
    funext e i
    exact foldl_range_add_eq (fun j => pairTerm term g i j) i e
  rw [h, foldl_range_add_eq (fun i => ∑ j in Finset.range i, pairTerm term g i j), zero_add]

theorem contribution_pos (s d : Int) : 0 < contribution s d := Real.exp_pos _

/-! ## Translations of the torus -/

theorem shiftCoord_cast (N : Nat) (s : Int) (x : Nat) (hN : 0 < N) :
    ((shiftCoord N s x : Nat) : Int) = ((x : Int) + s) % (N : Int) := by
  unfold shiftCoord
  exact Int.toNat_of_nonneg (Int.emod_nonneg _ (by omega))

theorem shiftCoord_lt (N : Nat) (s : Int) (x : Nat) (hN : 0 < N) : shiftCoord N s x < N := by
  have h1 := shiftCoord_cast N s x hN
  have h2 := Int.emod_lt_of_pos ((x : Int) + s) (show (0 : Int) < N by omega)
  omega

theorem shiftCoord_inv (N : Nat) (s : Int) (x : Nat) (hN : 0 < N) (hx : x < N) :
    shiftCoord N (-s) (shiftCoord N s x) = x := by
  have h1 : ((shiftCoord N (-s) (shiftCoord N s x) : Nat) : Int) = (x : Int) := by
    rw [shiftCoord_cast _ _ _ hN, shiftCoord_cast _ _ _ hN, Int.emod_add_emod]
    rw [show (x : Int) + s + -s = x by ring]
    exact Int.emod_eq_of_lt (Int.ofNat_nonneg x) (by omega)
  exact Int.ofNat.inj h1

theorem shiftIndex_mod (N : Nat) (sx sy : Int) (k : Nat) (hN : 0 < N) :
    shiftIndex N sx sy k % N = shiftCoord N sx (k % N) := by
  unfold shiftIndex
  rw [Nat.add_comm, Nat.add_mul_mod_self_right, Nat.mod_eq_of_lt (shiftCoord_lt N sx _ hN)]

theorem shiftIndex_div (N : Nat) (sx sy : Int) (k : Nat) (hN : 0 < N) :
    shiftIndex N sx sy k / N = shiftCoord N sy (k / N) := by
  unfold shiftIndex
  rw [Nat.add_comm, Nat.add_mul_div_right _ _ hN,
    Nat.div_eq_of_lt (shiftCoord_lt N sx _ hN), Nat.zero_add]

theorem shiftIndex_lt (N : Nat) (sx sy : Int) (k : Nat) (hN : 0 < N) :
    shiftIndex N sx sy k < N * N := by
  have h1 := shiftCoord_lt N sy (k / N) hN
  have h2 := shiftCoord_lt N sx (k % N) hN
  unfold shiftIndex
  calc shiftCoord N sy (k / N) * N + shiftCoord N sx (k % N)
      < shiftCoord N sy (k / N) * N + N := by omega
    _ = (shiftCoord N sy (k / N) + 1) * N := by ring
    _ ≤ N * N := Nat.mul_le_mul_right N h1

theorem shiftIndex_inv (N : Nat) (sx sy : Int) (k : Nat) (hN : 0 < N) (hk : k < N * N) :
    shiftIndex N (-sx) (-sy) (shiftIndex N sx sy k) = k := by
  have e : shiftIndex N (-sx) (-sy) (shiftIndex N sx sy k)
      = shiftCoord N (-sy) (shiftIndex N sx sy k / N) * N
        + shiftCoord N (-sx) (shiftIndex N sx sy k % N) := rfl
  rw [e, shiftIndex_mod N sx sy k hN, shiftIndex_div N sx sy k hN,
    shiftCoord_inv N sy _ hN (Nat.div_lt_of_lt_mul hk),
    shiftCoord_inv N sx _ hN (Nat.mod_lt k hN)]
  exact Nat.div_add_mod' k N

theorem torusDist_emod (N a b : Nat) (ha : a < N) (hb : b < N) :
    torusDist N a b
      = min ((((b : Int) - a) % (N : Int)).toNat) (N - (((b : Int) - a) % (N : Int)).toNat) := by
  unfold torusDist
  by_cases h : a ≤ b
  · rw [Int.emod_eq_of_lt (by omega) (by omega)]
    omega
  · have e : ((b : Int) - a) % (N : Int) = (b : Int) - a + N := by
      rw [← Int.add_emod_self]
      exact Int.emod_eq_of_lt (by omega) (by omega)
    rw [e]
    omega

theorem torusDist_shift (N : Nat) (s : Int) (a b : Nat) (hN : 0 < N) (ha : a < N)
    (hb : b < N) : torusDist N (shiftCoord N s a) (shiftCoord N s b) = torusDist N a b := by
  rw [torusDist_emod N _ _ (shiftCoord_lt N s a hN) (shiftCoord_lt N s b hN),
    torusDist_emod N a b ha hb, shiftCoord_cast _ _ _ hN, shiftCoord_cast _ _ _ hN,
    ← Int.sub_emod]
  rw [show (b : Int) + s - ((a : Int) + s) = (b : Int) - a by ring]

theorem torusDist_comm (N a b : Nat) : torusDist N a b = torusDist N b a := by
  unfold torusDist
  omega

/-- A summand that reads the difference of the two values through its magnitude only
gives the same contribution for both orders of two cells. -/
theorem refPairTerm_comm {α : Type} (term : Int → Int → α)
    (heven : ∀ s d, term s (-d) = term s d) (N : Nat) (values : List Byte) (i j : Nat) :
    refPairTerm term N values i j = refPairTerm term N values j i := by
  unfold refPairTerm
  rw [torusDist_comm N (j % N), torusDist_comm N (j / N), valueDiff_comm values i j, heven]

/-- The contribution of two moved cells is that of the cells before the move. -/
theorem refPairTerm_shift {α : Type} (term : Int → Int → α) (N : Nat) (sx sy : Int)
    (v w : List Byte) (hN : 0 < N)
    (hmove : ∀ k, k < N * N → w.getD (shiftIndex N sx sy k) 0 = v.getD k 0)
    (i j : Nat) (hi : i < N * N) (hj : j < N * N) :
    refPairTerm term N w (shiftIndex N sx sy i) (shiftIndex N sx sy j)
      = refPairTerm term N v i j := by
  unfold refPairTerm valueDiff
  rw [shiftIndex_mod _ _ _ _ hN, shiftIndex_mod _ _ _ _ hN, shiftIndex_div _ _ _ _ hN,
    shiftIndex_div _ _ _ _ hN,
    torusDist_shift N sx _ _ hN (Nat.mod_lt i hN) (Nat.mod_lt j hN),
    torusDist_shift N sy _ _ hN (Nat.div_lt_of_lt_mul hi) (Nat.div_lt_of_lt_mul hj),
    hmove i hi, hmove j hj]

/-- Re-indexing a sum over the cells by a translation. -/
theorem sum_shiftIndex (N : Nat) (sx sy : Int) (hN : 0 < N) (h : Nat → ℝ) :
    ∑ k in Finset.range (N * N), h (shiftIndex N sx sy k) = ∑ k in Finset.range (N * N), h k := by
  apply Finset.sum_nbij' (shiftIndex N sx sy) (shiftIndex N (-sx) (-sy))
  · intro k _
    exact Finset.mem_range.mpr (shiftIndex_lt N sx sy k hN)
  · intro k _
    exact Finset.mem_range.mpr (shiftIndex_lt N (-sx) (-sy) k hN)
  · intro k hk
    exact shiftIndex_inv N sx sy k hN (Finset.mem_range.mp hk)
  · intro k hk
    have := shiftIndex_inv N (-sx) (-sy) k hN (Finset.mem_range.mp hk)
    rwa [neg_neg, neg_neg] at this
  · intro k _
    rfl

/-- A symmetric summand: the full double sum is twice the sum over `j < i` plus the
diagonal. -/
theorem sum_sym_split (f : Nat → Nat → ℝ) (hf : ∀ i j, f i j = f j i) (M : Nat) :
    ∑ i in Finset.range M, ∑ j in Finset.range M, f i j
      = 2 * ∑ i in Finset.range M, ∑ j in Finset.range i, f i j
        + ∑ i in Finset.range M, f i i := by
  induction M with
  | zero => simp
  | succ M ih =>
    rw [Finset.sum_range_succ]
    simp only [Finset.sum_range_succ (fun j => f _ j)]
    rw [Finset.sum_add_distrib, ih,
      Finset.sum_range_succ (fun i => ∑ j in Finset.range i, f i j)]
    have e : ∑ i in Finset.range M, f i M = ∑ j in Finset.range M, f M j :=
      Finset.sum_congr rfl (fun i _ => hf i M)
    rw [e]
    ring

theorem E_eq_ref_sum {ρ α : Type} [LinearOrderedAddCommMonoid α] (term : Int → Int → α)
    (g : BlueNoiseGenerator ρ) (N : Nat) (hN : 0 < N)
    (hsize : g._size = N) (hlen : g._values.length = N * N) :
    E term g = ∑ i in Finset.range (N * N), ∑ j in Finset.range i,
      refPairTerm term N g._values i j := by
  rw [E_eq_sum, hlen]
  apply Finset.sum_congr rfl
  intro i hi
  apply Finset.sum_congr rfl
  intro j hj
  have hi' : i < N * N := Finset.mem_range.mp hi
  exact pairTerm_eq_ref term g N i j hN hsize hi' (lt_trans (Finset.mem_range.mp hj) hi')

/-! ## A grid of one cell -/

theorem trial_single {ρ α : Type} [Add α] [Zero α] [LT α]
    [DecidableRel (fun a b : α => a < b)] (uniformi : ρ → Nat × ρ)
    (term : Int → Int → α) (s : StepState ρ α) (h1 : s.gen._values.length = 1) :
    trial uniformi term s
      = some { s with gen := { s.gen with
                 _random := (uniformi (uniformi s.gen._random).2).2 } } := by
  unfold trial
  simp [h1, Nat.mod_one]

theorem trials_single {ρ α : Type} [Add α] [Zero α] [LT α]
    [DecidableRel (fun a b : α => a < b)] (uniformi : ρ → Nat × ρ)
    (term : Int → Int → α) (n : Nat) :
    ∀ s : StepState ρ α, s.gen._values.length = 1 →
    trials uniformi term n s
      = some { s with gen := { s.gen with
                 _random := (fun r => (uniformi (uniformi r).2).2)^[n] s.gen._random } } := by
  induction n with
  | zero =>
    intro s _
    rfl
  | succ n ih =>
    intro s h1
    rw [trials, trial_single uniformi term s h1, Option.some_bind, ih]
    · rw [Function.iterate_succ_apply]
    · exact h1

/-! ## `allocate` -/

section AllocateLemmas

variable {ρ : Type}

theorem resize_length (values : List Byte) (n : Nat) : (resize values n).length = n := by
  unfold resize
  rw [List.length_append, List.length_take, List.length_replicate]
  omega

theorem fillLoop_spec (uniformi : ρ → Nat × ρ) :
    ∀ (fuel i : Nat) (values : List Byte) (random : ρ),
      i ≤ values.length → values.length ≤ i + fuel →
      (fillLoop uniformi fuel i values random).length = values.length ∧
      ∀ k, k < values.length →
        (fillLoop uniformi fuel i values random)[k]?
          = if k < i then values[k]?
            else some ⟨draw uniformi random (k - i) % 256, Nat.mod_lt _ (by decide)⟩ := by
  intro fuel
  induction fuel with
  | zero =>
    intro i values random h1 h2
    refine ⟨rfl, ?_⟩
    intro k hk
    rw [if_pos (by omega)]
    rfl
  | succ fuel ih =>
    intro i values random h1 h2
    unfold fillLoop
    by_cases hi : i < values.length
    · rw [if_pos hi]
      simp only []
      have hlen : (values.set i ⟨(uniformi random).1 % 256, Nat.mod_lt _ (by decide)⟩).length
          = values.length := List.length_set _ _ _
      obtain ⟨l1, c1⟩ := ih (i + 1)
        (values.set i ⟨(uniformi random).1 % 256, Nat.mod_lt _ (by decide)⟩)
        (uniformi random).2 (by rw [hlen]; omega) (by rw [hlen]; omega)
      refine ⟨l1.trans hlen, ?_⟩
      intro k hk
      rw [c1 k (by rw [hlen]; exact hk)]
      by_cases hki : k < i
      · rw [if_pos (by omega), if_pos hki, List.getElem?_set_ne (by omega)]
      · rw [if_neg hki]
        by_cases hke : k = i
        · subst hke
          rw [if_pos (by omega), List.getElem?_set_eq_of_lt _ hi]
          simp [draw]
        · rw [if_neg (by omega)]
          have e : k - i = (k - (i + 1)) + 1 := by omega
          rw [e]
          rfl
    · rw [if_neg hi]
      refine ⟨rfl, ?_⟩
      intro k hk
      rw [if_pos (by omega)]

theorem wrapInt_eq (x : Int) (hlo : -2147483648 ≤ x) (hhi : x ≤ 2147483647) : wrapInt x = x := by
  unfold wrapInt
  omega

theorem square_fits (size : Int) (hlo : -46340 ≤ size) (hhi : size ≤ 46340) :
    0 ≤ size * size ∧ size * size ≤ 2147483647 := by
  refine ⟨mul_self_nonneg size, ?_⟩
  nlinarith [mul_nonneg (sub_nonneg.mpr hhi) (sub_nonneg.mpr (neg_le.mp hlo))]

/-- A call of `allocate` with a size whose square fits an `int` returns normally; the
object has `_size = size` and `size * size` cells, cell `k` holding the `k`-th draw of the
fresh generator modulo 256; `_random` is not touched. -/
theorem allocate_spec (uniformi : ρ → Nat × ρ) (fresh : ρ) (g : BlueNoiseGenerator ρ)
    (size : Int) (hlo : -46340 ≤ size) (hhi : size ≤ 46340) :
    ∃ g', allocate uniformi fresh g size = Except.ok g' ∧ g'._size = size ∧
      (g'._values.length : Int) = size * size ∧
      (∀ k, k < g'._values.length →
        ∃ v, g'._values[k]? = some v ∧ v.val = draw uniformi fresh k % 256 ∧ v.val ≤ 255) ∧
      g'._random = g._random := by
  obtain ⟨h0, h1⟩ := square_fits size hlo hhi
  have hw : wrapInt (size * size) = size * size := wrapInt_eq _ (by omega) h1
  obtain ⟨l1, c1⟩ := fillLoop_spec uniformi (resize g._values (size * size).toNat).length 0
    (resize g._values (size * size).toNat) fresh (Nat.zero_le _) (by omega)
  have hcall : allocate uniformi fresh g size
      = Except.ok { _size := size,
                    _values := fillLoop uniformi (resize g._values (size * size).toNat).length 0
                      (resize g._values (size * size).toNat) fresh,
                    _random := g._random } := by
    unfold allocate
    simp only [hw]
    rw [if_neg (not_lt.mpr h0)]
  refine ⟨_, hcall, rfl, ?_, ?_, rfl⟩
  · show ((fillLoop uniformi _ 0 (resize g._values (size * size).toNat) fresh).length : Int)
      = size * size
    rw [l1, resize_length]
    exact Int.toNat_of_nonneg h0
  · intro k hk
    have hk' : k < (resize g._values (size * size).toNat).length := by
      rw [← l1]
      exact hk
    refine ⟨⟨draw uniformi fresh k % 256, Nat.mod_lt _ (by decide)⟩, ?_, rfl, ?_⟩
    · have := c1 k hk'
      rw [if_neg (by omega)] at this
      exact this
    · have := Nat.mod_lt (draw uniformi fresh k) (show 0 < 256 by decide)
      show draw uniformi fresh k % 256 ≤ 255
      omega

end AllocateLemmas

/-! ## The loops of `apply` -/

section ExportLemmas

variable {ρ σ : Type}

theorem assign_sample (image : Image2D σ) (x y : Nat) (v : σ) (x2 y2 : Nat) :
    (image.assign x y v).sample x2 y2 = if x2 = x ∧ y2 = y then v else image.sample x2 y2 :=
  rfl

theorem assign_width (image : Image2D σ) (x y : Nat) (v : σ) :
    (image.assign x y v).width = image.width ∧ (image.assign x y v).height = image.height :=
  ⟨rfl, rfl⟩

theorem assign_row (f : Nat → Nat → σ) (j : Nat) (n : Nat) :
    ∀ image : Image2D σ,
      ((List.range n).foldl (fun img2 i => img2.assign i j (f i j)) image).width = image.width ∧
      ((List.range n).foldl (fun img2 i => img2.assign i j (f i j)) image).height
        = image.height ∧
      ∀ x y, ((List.range n).foldl (fun img2 i => img2.assign i j (f i j)) image).sample x y
        = if x < n ∧ y = j then f x y else image.sample x y := by
  induction n with
  | zero =>
    intro image
    simp
  | succ n ih =>
    intro image
    rw [List.range_succ, List.foldl_append]
    obtain ⟨hw, hh, hs⟩ := ih image
    simp only [List.foldl_cons, List.foldl_nil]
    refine ⟨(assign_width _ _ _ _).1.trans hw, (assign_width _ _ _ _).2.trans hh, ?_⟩
    intro x y
    rw [assign_sample, hs]
    by_cases hx : x = n
    · by_cases hy : y = j
      · subst hx; subst hy; simp
      · simp [hy]
    · by_cases hy : y = j
      · have : (x < n + 1) ↔ (x < n) := by omega
        simp [hx, hy, this]
      · simp [hy]

theorem applyLoops_assign (size : Int) (f : Nat → Nat → σ) (image : Image2D σ) :
    (applyLoops size (fun i j img => img.assign i j (f i j)) image).width = image.width ∧
    (applyLoops size (fun i j img => img.assign i j (f i j)) image).height = image.height ∧
    ∀ x y, (applyLoops size (fun i j img => img.assign i j (f i j)) image).sample x y
      = if x < size.toNat ∧ y < size.toNat then f x y else image.sample x y := by
  unfold applyLoops
  generalize size.toNat = n
  have key : ∀ m : Nat,
      ((List.range m).foldl
        (fun img j => (List.range n).foldl (fun img2 i => img2.assign i j (f i j)) img)
        image).width = image.width ∧
      ((List.range m).foldl
        (fun img j => (List.range n).foldl (fun img2 i => img2.assign i j (f i j)) img)
        image).height = image.height ∧
      ∀ x y, ((List.range m).foldl
        (fun img j => (List.range n).foldl (fun img2 i => img2.assign i j (f i j)) img)
        image).sample x y = if x < n ∧ y < m then f x y else image.sample x y := by
    intro m
    induction m with
    | zero => simp
    | succ m ih =>
      rw [List.range_succ, List.foldl_append]
      obtain ⟨hw, hh, hs⟩ := ih
      simp only [List.foldl_cons, List.foldl_nil]
      obtain ⟨rw1, rh1, rs1⟩ := assign_row f m n
        ((List.range m).foldl
          (fun img j => (List.range n).foldl (fun img2 i => img2.assign i j (f i j)) img) image)
      refine ⟨rw1.trans hw, rh1.trans hh, ?_⟩
      intro x y
      rw [rs1, hs]
      by_cases hx : x < n
      · by_cases hy : y = m
        · subst hy; simp [hx]
        · have : (y < m + 1) ↔ (y < m) := by omega
          simp [hx, hy, this]
      · simp [hx]
  exact key n

theorem cellAt_eq (g : BlueNoiseGenerator ρ) (N x y : Nat) (hsize : g._size = N) :
    cellAt g x y = g._values.getD (y * N + x) 0 := by
  unfold cellAt
  rw [hsize]
  have e : ((N : Int) * (y : Int) + (x : Int)).toNat = y * N + x := by
    have : ((N : Int) * (y : Int) + (x : Int)) = ((y * N + x : Nat) : Int) := by
      push_cast
      ring
    rw [this, Int.toNat_ofNat]
  rw [e]

theorem cell_index_lt (N x y : Nat) (hx : x < N) (hy : y < N) : y * N + x < N * N := by
  calc y * N + x < y * N + N := by omega
    _ = (y + 1) * N := by ring
    _ ≤ N * N := Nat.mul_le_mul_right N hy

end ExportLemmas

/-! ## One pass of the loop, case by case -/

section TrialCases

variable {ρ α : Type} [Preorder α] [DecidableRel (fun a b : α => a < b)] [Add α] [Zero α]

theorem drawIndices_lt (uniformi : ρ → Nat × ρ) (g : BlueNoiseGenerator ρ)
    (hne : g._values.length ≠ 0) :
    (drawIndices uniformi g).1 < g._values.length ∧
    (drawIndices uniformi g).2 < g._values.length :=
  ⟨Nat.mod_lt _ (Nat.pos_of_ne_zero hne), Nat.mod_lt _ (Nat.pos_of_ne_zero hne)⟩

/-- The three outcomes of one pass on a non-empty vector: skipped, committed, reverted. -/
theorem trial_eq (uniformi : ρ → Nat × ρ) (term : Int → Int → α) (s : StepState ρ α)
    (hne : s.gen._values.length ≠ 0) :
    trial uniformi term s = some (
      if (drawIndices uniformi s.gen).1 = (drawIndices uniformi s.gen).2 then
        { s with gen := { s.gen with _random := (uniformi (uniformi s.gen._random).2).2 } }
      else if E term { s.gen with
          _values := swapValues s.gen._values (drawIndices uniformi s.gen).1
            (drawIndices uniformi s.gen).2,
          _random := (uniformi (uniformi s.gen._random).2).2 } < s.currentE then
        { gen := { s.gen with
            _values := swapValues s.gen._values (drawIndices uniformi s.gen).1
              (drawIndices uniformi s.gen).2,
            _random := (uniformi (uniformi s.gen._random).2).2 },
          currentE := E term { s.gen with
            _values := swapValues s.gen._values (drawIndices uniformi s.gen).1
              (drawIndices uniformi s.gen).2,
            _random := (uniformi (uniformi s.gen._random).2).2 },
          flips := s.flips ++ [⟨s.currentE, E term { s.gen with
            _values := swapValues s.gen._values (drawIndices uniformi s.gen).1
              (drawIndices uniformi s.gen).2,
            _random := (uniformi (uniformi s.gen._random).2).2 },
            (drawIndices uniformi s.gen).1, (drawIndices uniformi s.gen).2⟩],
          evals := s.evals + 1 }
      else
        { gen := { s.gen with _random := (uniformi (uniformi s.gen._random).2).2 },
          currentE := s.currentE, flips := s.flips, evals := s.evals + 1 }) := by
  obtain ⟨ha, hb⟩ := drawIndices_lt uniformi s.gen hne
  unfold trial
  rw [if_neg hne]
  simp only []
  unfold drawIndices at ha hb ⊢
  simp only []
  split
  · rfl
  · split
    · rfl
    · rw [swapValues_swapValues _ _ _ ha hb]

/-- What one pass does to the counters, the generator and the length of the vector. -/
theorem trial_counters (uniformi : ρ → Nat × ρ) (term : Int → Int → α) (s : StepState ρ α)
    (hne : s.gen._values.length ≠ 0) :
    ∃ s', trial uniformi term s = some s' ∧
      s'.evals = s.evals +
        (if (drawIndices uniformi s.gen).1 = (drawIndices uniformi s.gen).2 then 0 else 1) ∧
      s'.gen._random = (uniformi (uniformi s.gen._random).2).2 ∧
      s'.gen._values.length = s.gen._values.length := by
  refine ⟨_, trial_eq uniformi term s hne, ?_⟩
  split_ifs <;> simp [swapValues_length]

theorem trials_counters (uniformi : ρ → Nat × ρ) (term : Int → Int → α) (n : Nat) :
    ∀ s : StepState ρ α, s.gen._values.length ≠ 0 →
    ∃ s', trials uniformi term n s = some s' ∧
      s.evals ≤ s'.evals ∧ s'.evals ≤ s.evals + n ∧
      s'.gen._random = (fun r => (uniformi (uniformi r).2).2)^[n] s.gen._random ∧
      s'.gen._values.length = s.gen._values.length := by
  induction n with
  | zero =>
    intro s _
    exact ⟨s, rfl, le_refl _, le_refl _, rfl, rfl⟩
  | succ n ih =>
    intro s hne
    obtain ⟨s1, h1, e1, r1, l1⟩ := trial_counters uniformi term s hne
    obtain ⟨s2, h2, lo2, hi2, r2, l2⟩ := ih s1 (by rw [l1]; exact hne)
    refine ⟨s2, by simp [trials, h1, h2], ?_, ?_, ?_, l2.trans l1⟩
    · split_ifs at e1 <;> omega
    · split_ifs at e1 <;> omega
    · rw [r2, r1, Function.iterate_succ_apply]

/-- The log of `printf` lines stays a chain of strict improvements that starts at `e0`
and ends at `currentE`, which stays the energy of the grid. -/
theorem trial_flips (uniformi : ρ → Nat × ρ) (term : Int → Int → α) (e0 : α)
    (s : StepState ρ α) (hne : s.gen._values.length ≠ 0)
    (hE : s.currentE = E term s.gen)
    (hall : ∀ f ∈ s.flips, f.a ≠ f.b ∧ f.newE < f.currentE)
    (hhead : ∀ f ∈ s.flips.head?, f.currentE = e0)
    (hchain : s.flips.Chain' (fun p q => q.currentE = p.newE))
    (hlast : s.currentE = (s.flips.getLast?.map Flip.newE).getD e0) :
    ∃ s', trial uniformi term s = some s' ∧
      s'.gen._values.length = s.gen._values.length ∧
      s'.flips.length ≤ s.flips.length + 1 ∧
      s'.currentE = E term s'.gen ∧
      (∀ f ∈ s'.flips, f.a ≠ f.b ∧ f.newE < f.currentE) ∧
      (∀ f ∈ s'.flips.head?, f.currentE = e0) ∧
      s'.flips.Chain' (fun p q => q.currentE = p.newE) ∧
      s'.currentE = (s'.flips.getLast?.map Flip.newE).getD e0 := by
  refine ⟨_, trial_eq uniformi term s hne, ?_⟩
  split_ifs with hab hlt
  · exact ⟨rfl, Nat.le_succ _, hE.trans (E_congr term _ _ rfl rfl), hall, hhead, hchain, hlast⟩
  · refine ⟨by simp [swapValues_length], by simp, rfl, ?_, ?_, ?_, ?_⟩
    · intro f hf
      rcases List.mem_append.mp hf with h | h
      · exact hall f h
      · rw [List.mem_singleton] at h
        subst h
        exact ⟨hab, hlt⟩
    · intro f hf
      cases hfl : s.flips with
      | nil =>
        rw [hfl] at hf hlast
        simp at hf
        rw [← hf]
        simpa using hlast
      | cons x xs =>
        rw [hfl] at hf
        simp at hf
        exact hhead f (by rw [hfl]; simpa using hf)
    · rw [List.chain'_append]
      refine ⟨hchain, List.chain'_singleton _, ?_⟩
      intro x hx y hy
      simp at hy
      rw [← hy]
      show s.currentE = x.newE
      rw [hlast]
      rw [Option.mem_def] at hx
      rw [hx]
      rfl
    · simp [List.getLast?_concat]
  · exact ⟨rfl, Nat.le_succ _, hE.trans (E_congr term _ _ rfl rfl), hall, hhead, hchain, hlast⟩

theorem trials_flips (uniformi : ρ → Nat × ρ) (term : Int → Int → α) (e0 : α) (n : Nat) :
    ∀ s : StepState ρ α, s.gen._values.length ≠ 0 →
    s.currentE = E term s.gen →
    (∀ f ∈ s.flips, f.a ≠ f.b ∧ f.newE < f.currentE) →
    (∀ f ∈ s.flips.head?, f.currentE = e0) →
    s.flips.Chain' (fun p q => q.currentE = p.newE) →
    s.currentE = (s.flips.getLast?.map Flip.newE).getD e0 →
    ∃ s', trials uniformi term n s = some s' ∧
      s'.flips.length ≤ s.flips.length + n ∧
      s'.currentE = E term s'.gen ∧
      (∀ f ∈ s'.flips, f.a ≠ f.b ∧ f.newE < f.currentE) ∧
      (∀ f ∈ s'.flips.head?, f.currentE = e0) ∧
      s'.flips.Chain' (fun p q => q.currentE = p.newE) ∧
      s'.currentE = (s'.flips.getLast?.map Flip.newE).getD e0 := by
  induction n with
  | zero =>
    intro s _ hE hall hhead hchain hlast
    exact ⟨s, rfl, le_refl _, hE, hall, hhead, hchain, hlast⟩
  | succ n ih =>
    intro s hne hE hall hhead hchain hlast
    obtain ⟨s1, h1, l1, n1, hE1, hall1, hhead1, hchain1, hlast1⟩ :=
      trial_flips uniformi term e0 s hne hE hall hhead hchain hlast
    obtain ⟨s2, h2, n2, hE2, hall2, hhead2, hchain2, hlast2⟩ :=
      ih s1 (by rw [l1]; exact hne) hE1 hall1 hhead1 hchain1 hlast1
    exact ⟨s2, by simp [trials, h1, h2], by omega, hE2, hall2, hhead2, hchain2, hlast2⟩

end TrialCases

/-! ## The fixture with the `float` quotient and with the real quotient -/

theorem floatQuotient_one : floatQuotient 1 = (-15978302, -25) := by decide

theorem floatQuotient_two : floatQuotient 2 = (-15978302, -24) := by decide

theorem contribution_one (d : Int) :
    contribution 1 d = Real.exp (-(15978302 / 33554432) - Real.sqrt |(d : ℝ)|) := by
  unfold contribution floatValue
  rw [floatQuotient_one]
  norm_num

theorem contribution_two (d : Int) :
    contribution 2 d = Real.exp (-(15978302 / 16777216) - Real.sqrt |(d : ℝ)|) := by
  unfold contribution floatValue
  rw [floatQuotient_two]
  norm_num

/-- The energy of the fixture with the summand of the source. -/
theorem fixture2_energy :
    E contribution fixture2
      = 2 * Real.exp (-(15978302 / 33554432) - Real.sqrt 10)
        + 2 * Real.exp (-(15978302 / 33554432) - Real.sqrt 20)
        + Real.exp (-(15978302 / 16777216) - Real.sqrt 10)
        + Real.exp (-(15978302 / 16777216) - Real.sqrt 30) := by
  have s10 : sqDist 2 1 0 = 1 := by decide
  have s20 : sqDist 2 2 0 = 1 := by decide
  have s21 : sqDist 2 2 1 = 2 := by decide
  have s30 : sqDist 2 3 0 = 2 := by decide
  have s31 : sqDist 2 3 1 = 1 := by decide
  have s32 : sqDist 2 3 2 = 1 := by decide
  have v10 : valueDiff [10, 20, 30, 40] 1 0 = 10 := by decide
  have v20 : valueDiff [10, 20, 30, 40] 2 0 = 20 := by decide
  have v21 : valueDiff [10, 20, 30, 40] 2 1 = 10 := by decide
  have v30 : valueDiff [10, 20, 30, 40] 3 0 = 30 := by decide
  have v31 : valueDiff [10, 20, 30, 40] 3 1 = 20 := by decide
  have v32 : valueDiff [10, 20, 30, 40] 3 2 = 10 := by decide
  rw [E_eq_sum]
  simp only [fixture2, List.length_cons, List.length_nil, Finset.sum_range_succ,
    Finset.sum_range_zero, pairTerm, s10, s20, s21, s30, s31, s32, v10, v20, v21, v30, v31,
    v32, contribution_one, contribution_two]
  norm_num
  ring

/-- The reference energy of the specification on the fixture, with `σ = 2.1`. -/
theorem fixture2_refEnergy :
    refEnergy 2 fixture2._values
      = 2 * Real.exp (-1 / 2.1 - Real.sqrt 10) + 2 * Real.exp (-1 / 2.1 - Real.sqrt 20)
        + Real.exp (-2 / 2.1 - Real.sqrt 10) + Real.exp (-2 / 2.1 - Real.sqrt 30) := by
  have t01 : torusDist 2 0 1 = 1 := by decide
  have t10 : torusDist 2 1 0 = 1 := by decide
  have t00 : torusDist 2 0 0 = 0 := by decide
  have t11 : torusDist 2 1 1 = 0 := by decide
  have c10 : ((10 : Byte).val : ℝ) = 10 := by
    rw [show (10 : Byte).val = 10 from rfl]
    norm_num
  have c20 : ((20 : Byte).val : ℝ) = 20 := by
    rw [show (20 : Byte).val = 20 from rfl]
    norm_num
  have c30 : ((30 : Byte).val : ℝ) = 30 := by
    rw [show (30 : Byte).val = 30 from rfl]
    norm_num
  have c40 : ((40 : Byte).val : ℝ) = 40 := by
    rw [show (40 : Byte).val = 40 from rfl]
    norm_num
  unfold refEnergy
  rw [← sum_pairIndices fixture2._values.length (fun i j => refContribution 2 fixture2._values i j)]
  simp only [fixture2, List.length_cons, List.length_nil, Finset.sum_range_succ,
    Finset.sum_range_zero, refContribution]
  norm_num [t01, t10, t00, t11, List.getD, c10, c20, c30, c40]
  ring

/-- The `float` quotients of `-1` and `-2` by `2.1f` lie below `-1/2.1` and `-2/2.1`, so
the energy of the fixture lies strictly below the closed form with `σ = 2.1`. -/
theorem fixture2_energy_lt :
    E contribution fixture2
      < 2 * Real.exp (-1 / 2.1 - Real.sqrt 10) + 2 * Real.exp (-1 / 2.1 - Real.sqrt 20)
        + Real.exp (-2 / 2.1 - Real.sqrt 10) + Real.exp (-2 / 2.1 - Real.sqrt 30) := by
  rw [fixture2_energy]
  have q1 : (-(15978302 / 33554432) : ℝ) < -1 / 2.1 := by norm_num
  have q2 : (-(15978302 / 16777216) : ℝ) < -2 / 2.1 := by norm_num
  have h1 := Real.exp_lt_exp.mpr (sub_lt_sub_right q1 (Real.sqrt 10))
  have h2 := Real.exp_lt_exp.mpr (sub_lt_sub_right q1 (Real.sqrt 20))
  have h3 := Real.exp_lt_exp.mpr (sub_lt_sub_right q2 (Real.sqrt 10))
  have h4 := Real.exp_lt_exp.mpr (sub_lt_sub_right q2 (Real.sqrt 30))
  linarith

/-! ## The claims -/

/-- C1. Multiset invariance of `step()`: for every non-empty grid, every generator and
generator state and every number `k` of consecutive `step()` calls, the calls return and
the grid after them has the same length and the same multiset of byte values as before:
its cells are a permutation of the original ones. -/
theorem step_multiset_invariance {ρ : Type} (uniformi : ρ → Nat × ρ)
    (g : BlueNoiseGenerator ρ) (k : Nat) (hne : g._values ≠ []) :
    ∃ g', steps uniformi contribution k g = some g' ∧
      g'._values.length = g._values.length ∧
      g'._values.Perm g._values ∧
      (Multiset.ofList g'._values = Multiset.ofList g._values) := by
  obtain ⟨g', h, p, _, _⟩ := steps_spec uniformi contribution k g hne
  exact ⟨g', h, p.length_eq, p, Multiset.coe_eq_coe.mpr p⟩

theorem step_multiset_invariance_witness :
    fixture2._values ≠ [] ∧
    ∃ g', steps lcg contribution 3 fixture2 = some g' ∧
      g'._values.length = fixture2._values.length ∧
      g'._values.Perm fixture2._values ∧
      (Multiset.ofList g'._values = Multiset.ofList fixture2._values) :=
  ⟨by decide, step_multiset_invariance lcg fixture2 3 (by decide)⟩

/-- C3, the claim refuted: on the 2×2 fixture `E()` is not the reference pair sum with
`σ = 2.1`; it lies strictly below it, because line 65 divides by the `float` constant
`2.1f` in `float`. -/
theorem E_differs_from_reference :
    E contribution fixture2 < refEnergy 2 fixture2._values ∧
    E contribution fixture2 ≠ refEnergy 2 fixture2._values := by
  have h : E contribution fixture2 < refEnergy 2 fixture2._values := by
    rw [fixture2_refEnergy]
    exact fixture2_energy_lt
  exact ⟨h, ne_of_lt h⟩

/-- C3, amended. For a grid of size `N ≥ 1` with `M = N * N` cells, `E()` is the sum over
the index pairs `(i, j)` with `j < i < M` of the summand of line 65,
`exp(q - sqrt |v_i - v_j|)`, where `q` is the `float` quotient of `-(dx² + dy²)` by the
`float` constant `2.1f` and `(dx, dy)` is the toroidal displacement between
`(i mod N, i div N)` and `(j mod N, j div N)`; sums, `sqrt` and `exp` are exact.  The pairs
are `M(M-1)/2` in number, the loop adds `M(M-1)/2` summands, no pair `(i, i)` is among
them, and of two distinct cells exactly one order is. -/
theorem E_eq_pair_sum {ρ : Type} (g : BlueNoiseGenerator ρ) (N : Nat)
    (hN : 1 ≤ N) (hsize : g._size = N) (hlen : g._values.length = N * N) :
    E contribution g
      = ∑ p in pairIndices (N * N),
          Real.exp (floatValue (floatQuotient
              ((torusDist N (p.1 % N) (p.2 % N) ^ 2
                + torusDist N (p.1 / N) (p.2 / N) ^ 2 : Nat) : Int))
            - Real.sqrt |((g._values.getD p.1 0).val : ℝ) - ((g._values.getD p.2 0).val : ℝ)|) ∧
    (pairIndices (N * N)).card = N * N * (N * N - 1) / 2 ∧
    E (fun _ _ => (1 : Nat)) g = N * N * (N * N - 1) / 2 ∧
    (∀ i, (i, i) ∉ pairIndices (N * N)) ∧
    (∀ i j, i < N * N → j < N * N → i ≠ j →
      ((i, j) ∈ pairIndices (N * N) ↔ (j, i) ∉ pairIndices (N * N))) := by
  refine ⟨?_, card_pairIndices _, ?_, ?_, ?_⟩
  · rw [E_eq_ref_sum contribution g N hN hsize hlen,
      sum_pairIndices (N * N) (fun i j => refPairTerm contribution N g._values i j)]
    apply Finset.sum_congr rfl
    intro p _
    unfold refPairTerm contribution valueDiff
    push_cast
    rfl
  · rw [E_eq_sum, hlen]
    simp only [pairTerm, Finset.sum_const, Finset.card_range, smul_eq_mul, mul_one]
    exact Finset.sum_range_id _
  · intro i h
    simp [pairIndices] at h
  · intro i j hi hj hij
    simp only [pairIndices, Finset.mem_filter, Finset.mem_product, Finset.mem_range]
    omega

theorem E_eq_pair_sum_witness :
    E contribution fixture2
      = ∑ p in pairIndices (2 * 2),
          Real.exp (floatValue (floatQuotient
              ((torusDist 2 (p.1 % 2) (p.2 % 2) ^ 2
                + torusDist 2 (p.1 / 2) (p.2 / 2) ^ 2 : Nat) : Int))
            - Real.sqrt |((fixture2._values.getD p.1 0).val : ℝ)
                - ((fixture2._values.getD p.2 0).val : ℝ)|) ∧
    (pairIndices (2 * 2)).card = 2 * 2 * (2 * 2 - 1) / 2 ∧
    E (fun _ _ => (1 : Nat)) fixture2 = 2 * 2 * (2 * 2 - 1) / 2 ∧
    (∀ i, (i, i) ∉ pairIndices (2 * 2)) ∧
    (∀ i j, i < 2 * 2 → j < 2 * 2 → i ≠ j →
      ((i, j) ∈ pairIndices (2 * 2) ↔ (j, i) ∉ pairIndices (2 * 2))) :=
  E_eq_pair_sum fixture2 2 (by decide) rfl rfl

/-- C4. Translation invariance of the energy: for every grid of size `N ≥ 1` and every
shift `(sx, sy)`, a grid of the same size in which the value of every cell `(x, y)` of the
original sits at cell `((x+sx) mod N, (y+sy) mod N)` has exactly the energy `E()` of the
original, over the reals. -/
theorem E_translation_invariant {ρ : Type} (g g' : BlueNoiseGenerator ρ) (N : Nat)
    (sx sy : Int) (hN : 1 ≤ N)
    (hsize : g._size = N) (hlen : g._values.length = N * N)
    (hsize' : g'._size = N) (hlen' : g'._values.length = N * N)
    (hmove : ∀ x, x < N → ∀ y, y < N →
      g'._values.getD
          ((((y : Int) + sy) % (N : Int)).toNat * N + (((x : Int) + sx) % (N : Int)).toNat) 0
        = g._values.getD (y * N + x) 0) :
    E contribution g' = E contribution g := by
  have hN0 : 0 < N := hN
  have hmv : ∀ k, k < N * N →
      g'._values.getD (shiftIndex N sx sy k) 0 = g._values.getD k 0 := by
    intro k hk
    have h := hmove (k % N) (Nat.mod_lt k hN0) (k / N) (Nat.div_lt_of_lt_mul hk)
    rw [Nat.div_add_mod' k N] at h
    exact h
  have hfull : ∑ i in Finset.range (N * N), ∑ j in Finset.range (N * N),
        refPairTerm contribution N g'._values i j
      = ∑ i in Finset.range (N * N), ∑ j in Finset.range (N * N),
        refPairTerm contribution N g._values i j := by
    rw [← sum_shiftIndex N sx sy hN0
      (fun i => ∑ j in Finset.range (N * N), refPairTerm contribution N g'._values i j)]
    apply Finset.sum_congr rfl
    intro i hi
    rw [← sum_shiftIndex N sx sy hN0
      (fun j => refPairTerm contribution N g'._values (shiftIndex N sx sy i) j)]
    apply Finset.sum_congr rfl
    intro j hj
    exact refPairTerm_shift contribution N sx sy g._values g'._values hN0 hmv i j
      (Finset.mem_range.mp hi) (Finset.mem_range.mp hj)
  have hdiag : ∑ i in Finset.range (N * N), refPairTerm contribution N g'._values i i
      = ∑ i in Finset.range (N * N), refPairTerm contribution N g._values i i := by
    rw [← sum_shiftIndex N sx sy hN0 (fun i => refPairTerm contribution N g'._values i i)]
    apply Finset.sum_congr rfl
    intro i hi
    exact refPairTerm_shift contribution N sx sy g._values g'._values hN0 hmv i i
      (Finset.mem_range.mp hi) (Finset.mem_range.mp hi)
  have h1 := sum_sym_split (refPairTerm contribution N g'._values)
    (refPairTerm_comm contribution contribution_neg N g'._values) (N * N)
  have h2 := sum_sym_split (refPairTerm contribution N g._values)
    (refPairTerm_comm contribution contribution_neg N g._values) (N * N)
  rw [E_eq_ref_sum contribution g N hN0 hsize hlen,
    E_eq_ref_sum contribution g' N hN0 hsize' hlen']
  linarith

theorem E_translation_invariant_witness :
    E contribution (⟨2, [40, 30, 20, 10], 5⟩ : BlueNoiseGenerator Nat)
      = E contribution fixture2 :=
  E_translation_invariant fixture2 ⟨2, [40, 30, 20, 10], 5⟩ 2 3 (-1) (by decide) rfl rfl rfl rfl
    (by decide)

/-- C5, the claim refuted: on the fixture `[10, 20, 30, 40]` with `N = 2` the total `E()`
is not `2·exp(-1/2.1 - √10) + 2·exp(-1/2.1 - √20) + exp(-2/2.1 - √10) + exp(-2/2.1 - √30)`;
it lies strictly below it. -/
theorem E_fixture2_below_closed_form :
    E contribution fixture2
      < 2 * Real.exp (-1 / 2.1 - Real.sqrt 10) + 2 * Real.exp (-1 / 2.1 - Real.sqrt 20)
        + Real.exp (-2 / 2.1 - Real.sqrt 10) + Real.exp (-2 / 2.1 - Real.sqrt 30) ∧
    E contribution fixture2
      ≠ 2 * Real.exp (-1 / 2.1 - Real.sqrt 10) + 2 * Real.exp (-1 / 2.1 - Real.sqrt 20)
        + Real.exp (-2 / 2.1 - Real.sqrt 10) + Real.exp (-2 / 2.1 - Real.sqrt 30) :=
  ⟨fixture2_energy_lt, ne_of_lt fixture2_energy_lt⟩

/-- C5, amended. For `N = 2` and storage `[10, 20, 30, 40]`, `E()` adds exactly six pair
contributions, every axis displacement of a pair has magnitude 0 or 1, and the total is
`2·exp(q₁ - √10) + 2·exp(q₁ - √20) + exp(q₂ - √10) + exp(q₂ - √30)`, where
`q₁ = -15978302/2^25` and `q₂ = -15978302/2^24` are the `float` quotients of `-1` and `-2`
by `sigma_i = 2.1f`; sums, `sqrt` and `exp` are exact. -/
theorem E_fixture2 :
    E contribution fixture2
      = 2 * Real.exp (-(15978302 / 33554432) - Real.sqrt 10)
        + 2 * Real.exp (-(15978302 / 33554432) - Real.sqrt 20)
        + Real.exp (-(15978302 / 16777216) - Real.sqrt 10)
        + Real.exp (-(15978302 / 16777216) - Real.sqrt 30) ∧
    floatQuotient 1 = (-15978302, -25) ∧ floatQuotient 2 = (-15978302, -24) ∧
    E (fun _ _ => (1 : Nat)) fixture2 = 6 ∧
    (∀ i, i < 4 → ∀ j, j < i →
      (dxOf fixture2._size i j).natAbs ≤ 1 ∧ (dyOf fixture2._size i j).natAbs ≤ 1) :=
  ⟨fixture2_energy, floatQuotient_one, floatQuotient_two, by decide, by decide⟩

/-- C6. Non-negativity: for every grid, of any size and any byte values, `E() ≥ 0`. -/
theorem E_nonneg {ρ : Type} (g : BlueNoiseGenerator ρ) : 0 ≤ E contribution g :=
  E_nonneg_of_term contribution (fun s d => le_of_lt (contribution_pos s d)) g

/-- C7, the claim refuted: `allocate(0)` and `allocate(-3)` return normally.  On the
2×2 fixture the first leaves `_size = 0` and an empty vector, the second `_size = -3`
and nine cells; neither call is an `InvalidArgument` failure and both resize the grid. -/
theorem allocate_nonpositive_returns :
    (∃ g', allocate lcg 7 fixture2 0 = Except.ok g' ∧ g'._size = 0 ∧ g'._values = []) ∧
    (∃ g', allocate lcg 7 fixture2 (-3) = Except.ok g' ∧ g'._size = -3 ∧
      g'._values = [108, 78, 116, 146, 19, 37, 34, 46, 49]) ∧
    ¬ (∀ n : Int, n ≤ 0 →
      allocate lcg 7 fixture2 n = Except.error GridError.InvalidArgument) := by
  have h0 : allocate lcg 7 fixture2 0 = Except.ok ⟨0, [], 1⟩ := rfl
  refine ⟨⟨_, h0, rfl, rfl⟩, ⟨_, rfl, rfl, by decide⟩, ?_⟩
  intro h
  have h1 := h 0 (le_refl 0)
  rw [h0] at h1
  exact absurd h1 (by simp)

/-- C7, amended. `allocate(n)` does not fail for `n ≤ 0` whose square fits an `int`
(`-46340 ≤ n ≤ 0`): it returns normally, sets the size to `n` and resizes the storage to
`n * n` cells (none for `n = 0`), cell `k` holding the `k`-th draw of a fresh generator
modulo 256. -/
theorem allocate_nonpositive {ρ : Type} (uniformi : ρ → Nat × ρ) (fresh : ρ)
    (g : BlueNoiseGenerator ρ) (n : Int) (hn : n ≤ 0) (hlo : -46340 ≤ n) :
    ∃ g', allocate uniformi fresh g n = Except.ok g' ∧ g'._size = n ∧
      (g'._values.length : Int) = n * n ∧
      (∀ k, k < g'._values.length →
        ∃ v, g'._values[k]? = some v ∧ v.val = draw uniformi fresh k % 256) := by
  obtain ⟨g', h, hs, hl, hc, _⟩ := allocate_spec uniformi fresh g n hlo (by omega)
  refine ⟨g', h, hs, hl, ?_⟩
  intro k hk
  obtain ⟨v, hv, hd, _⟩ := hc k hk
  exact ⟨v, hv, hd⟩

theorem allocate_nonpositive_witness :
    ((-3 : Int) ≤ 0 ∧ (-46340 : Int) ≤ -3) ∧
    ∃ g', allocate lcg 7 fixture2 (-3) = Except.ok g' ∧ g'._size = -3 ∧
      (g'._values.length : Int) = -3 * -3 ∧
      (∀ k, k < g'._values.length →
        ∃ v, g'._values[k]? = some v ∧ v.val = draw lcg 7 k % 256) :=
  ⟨by decide, allocate_nonpositive lcg 7 fixture2 (-3) (by decide) (by decide)⟩

/-- C8, the claim refuted: `allocate(65536)` returns with `_size = 65536` and no cell at
all, the `int` product `65536 * 65536` being 0 after the overflow, and `allocate(46341)`
does not return: the product is negative and `resize` throws `std::length_error`. -/
theorem allocate_large_size :
    (∃ g', allocate lcg 7 fixture2 65536 = Except.ok g' ∧ g'._size = 65536 ∧
      g'._values = []) ∧
    allocate lcg 7 fixture2 46341 = Except.error GridError.LengthError ∧
    ¬ (∀ n : Int, 0 < n → ∃ g', allocate lcg 7 fixture2 n = Except.ok g' ∧
      (g'._values.length : Int) = n * n) := by
  have h0 : allocate lcg 7 fixture2 65536 = Except.ok ⟨65536, [], 1⟩ := rfl
  refine ⟨⟨_, h0, rfl, rfl⟩, rfl, ?_⟩
  intro h
  obtain ⟨g', hg, hl⟩ := h 65536 (by decide)
  rw [h0] at hg
  injection hg with hg
  rw [← hg] at hl
  simp at hl

/-- C8, amended. `allocate` postcondition: for every `n > 0` whose square fits an `int`
(`0 < n ≤ 46340`), `allocate(n)` returns normally, the grid size is `n`, the storage holds
exactly `n * n` cells, and cell `k`, for every `0 ≤ k < n * n`, holds the `k`-th draw of a
freshly constructed generator modulo 256, a value in `0..255`; the cells are filled in
index order from consecutive draws. -/
theorem allocate_postcondition {ρ : Type} (uniformi : ρ → Nat × ρ) (fresh : ρ)
    (g : BlueNoiseGenerator ρ) (n : Int) (hn : 0 < n) (hhi : n ≤ 46340) :
    ∃ g', allocate uniformi fresh g n = Except.ok g' ∧ g'._size = n ∧
      (g'._values.length : Int) = n * n ∧
      (∀ k, k < g'._values.length →
        ∃ v, g'._values[k]? = some v ∧ v.val = draw uniformi fresh k % 256 ∧ v.val ≤ 255) ∧
      g'._random = g._random :=
  allocate_spec uniformi fresh g n (by omega) hhi

theorem allocate_postcondition_witness :
    ((0 : Int) < 3 ∧ (3 : Int) ≤ 46340) ∧
    ∃ g', allocate lcg 7 fixture2 3 = Except.ok g' ∧ g'._size = 3 ∧
      (g'._values.length : Int) = 3 * 3 ∧
      (∀ k, k < g'._values.length →
        ∃ v, g'._values[k]? = some v ∧ v.val = draw lcg 7 k % 256 ∧ v.val ≤ 255) ∧
      g'._random = fixture2._random :=
  ⟨by decide, allocate_postcondition lcg 7 fixture2 3 (by decide) (by decide)⟩

/-- C9. Parallel/sequential parity: for every grid, merging the partial sums `localE(i)`
into the accumulator in any order that visits every outer index once gives the value of
the single-threaded double loop over all pairs `j < i`; `E()` is that value. -/
theorem merge_order_independent {ρ : Type} (g : BlueNoiseGenerator ρ) (order : List Nat)
    (horder : order.Perm (List.range g._values.length)) :
    mergePartials contribution g order = sequentialE contribution g ∧
    E contribution g = sequentialE contribution g := by
  have hE : E contribution g = sequentialE contribution g := by
    rw [E_eq_sum, sequentialE_eq_sum]
  refine ⟨?_, hE⟩
  rw [← hE, E, mergePartials_eq, mergePartials_eq]
  exact (horder.map (localE contribution g)).sum_eq

theorem merge_order_independent_witness :
    [2, 0, 3, 1].Perm (List.range fixture2._values.length) ∧
    mergePartials contribution fixture2 [2, 0, 3, 1] = sequentialE contribution fixture2 ∧
    E contribution fixture2 = sequentialE contribution fixture2 :=
  ⟨by decide, merge_order_independent fixture2 [2, 0, 3, 1] (by decide)⟩

/-- C10. Degenerate size-1 grid: on a grid of one cell, for every generator state, every
pass of the loop draws `a = b = 0` and is skipped; `step()` returns, with the cells and
the size unchanged, no `printf`, and the baseline `E()` as its only energy evaluation. -/
theorem step_single_cell {ρ : Type} (uniformi : ρ → Nat × ρ) (g : BlueNoiseGenerator ρ)
    (h1 : g._values.length = 1) :
    (∀ r : ρ, (uniformi r).1 % g._values.length = 0) ∧
    (∀ s : StepState ρ ℝ, s.gen._values = g._values →
      trial uniformi contribution s
        = some { s with gen := { s.gen with
                   _random := (uniformi (uniformi s.gen._random).2).2 } }) ∧
    stepRun uniformi contribution g
      = some { gen := { g with
                 _random := (fun r => (uniformi (uniformi r).2).2)^[16] g._random },
               currentE := E contribution g, flips := [], evals := 1 } ∧
    ∃ g', step uniformi contribution g = some g' ∧ g'._values = g._values ∧
      g'._size = g._size := by
  have hrun : stepRun uniformi contribution g
      = some { gen := { g with
                 _random := (fun r => (uniformi (uniformi r).2).2)^[16] g._random },
               currentE := E contribution g, flips := [], evals := 1 } := by
    unfold stepRun
    rw [trials_single uniformi contribution 16 _ h1]
  refine ⟨?_, ?_, hrun, ?_⟩
  · intro r
    rw [h1, Nat.mod_one]
  · intro s hs
    exact trial_single uniformi contribution s (by rw [hs]; exact h1)
  · refine ⟨{ g with _random := (fun r => (uniformi (uniformi r).2).2)^[16] g._random },
      ?_, rfl, rfl⟩
    unfold step
    rw [hrun]
    rfl

theorem step_single_cell_witness :
    (∀ r : Nat, (lcg r).1 % [(7 : Byte)].length = 0) ∧
    (∀ s : StepState Nat ℝ, s.gen._values = [(7 : Byte)] →
      trial lcg contribution s
        = some { s with gen := { s.gen with _random := (lcg (lcg s.gen._random).2).2 } }) ∧
    stepRun lcg contribution ⟨1, [(7 : Byte)], 1⟩
      = some { gen := ⟨1, [(7 : Byte)], (fun r => (lcg (lcg r).2).2)^[16] 1⟩,
               currentE := E contribution (⟨1, [(7 : Byte)], 1⟩ : BlueNoiseGenerator Nat),
               flips := [], evals := 1 } ∧
    ∃ g', step lcg contribution ⟨1, [(7 : Byte)], 1⟩ = some g' ∧ g'._values = [(7 : Byte)] ∧
      g'._size = 1 :=
  step_single_cell lcg ⟨1, [(7 : Byte)], 1⟩ rfl

/-- C11. Bounded trial count: for every non-empty grid and every generator state, one
`step()` call returns after exactly 16 passes of its loop (32 draws) and at most 17
energy evaluations, the baseline and at most one per pass, whatever the grid size; a
pass with `a = b` performs none and a pass with `a ≠ b` exactly one. -/
theorem step_evaluation_bound {ρ : Type} (uniformi : ρ → Nat × ρ) (g : BlueNoiseGenerator ρ)
    (hne : g._values ≠ []) :
    (∃ s', stepRun uniformi contribution g = some s' ∧ 1 ≤ s'.evals ∧ s'.evals ≤ 17 ∧
      s'.gen._random = (fun r => (uniformi (uniformi r).2).2)^[16] g._random) ∧
    (∀ s : StepState ρ ℝ, s.gen._values ≠ [] →
      ∃ s', trial uniformi contribution s = some s' ∧
        s'.evals = s.evals +
          (if (drawIndices uniformi s.gen).1 = (drawIndices uniformi s.gen).2
            then 0 else 1)) := by
  constructor
  · obtain ⟨s', h, lo, hi, r, _⟩ := trials_counters uniformi contribution 16
      { gen := g, currentE := E contribution g, flips := [], evals := 1 }
      (fun h0 => hne (List.length_eq_zero.mp h0))
    exact ⟨s', h, lo, hi, r⟩
  · intro s hs
    obtain ⟨s', h, e, _, _⟩ := trial_counters uniformi contribution s
      (fun h0 => hs (List.length_eq_zero.mp h0))
    exact ⟨s', h, e⟩

theorem step_evaluation_bound_witness :
    fixture2._values ≠ [] ∧
    (∃ s', stepRun lcg contribution fixture2 = some s' ∧ 1 ≤ s'.evals ∧ s'.evals ≤ 17 ∧
      s'.gen._random = (fun r => (lcg (lcg r).2).2)^[16] fixture2._random) ∧
    (∀ s : StepState Nat ℝ, s.gen._values ≠ [] →
      ∃ s', trial lcg contribution s = some s' ∧
        s'.evals = s.evals +
          (if (drawIndices lcg s.gen).1 = (drawIndices lcg s.gen).2 then 0 else 1)) :=
  ⟨by decide, step_evaluation_bound lcg fixture2 (by decide)⟩

/-- C12. The export to a mono image, `apply( pr::Image2DMono8& )`: for every grid of size
`N ≥ 1` the image after the call is `N × N` and its sample at `(x, y)`, for `x < N` and
`y < N`, is the grid value at index `y·N + x`, unchanged; the grid is not modified. -/
theorem applyMono8_copies {ρ : Type} (blank : Nat → Nat → Byte) (g : BlueNoiseGenerator ρ)
    (N : Nat) (_hN : 1 ≤ N) (hsize : g._size = N) (hlen : g._values.length = N * N) :
    (applyMono8 blank g).1 = g ∧
    (applyMono8 blank g).2.width = N ∧ (applyMono8 blank g).2.height = N ∧
    ∀ x y, x < N → y < N →
      g._values[y * N + x]? = some ((applyMono8 blank g).2.sample x y) := by
  obtain ⟨hw, hh, hs⟩ := applyLoops_assign g._size (fun i j => cellAt g i j)
    (Image2D.allocate blank g._size g._size)
  refine ⟨rfl, hw.trans hsize, hh.trans hsize, ?_⟩
  intro x y hx hy
  have hidx : y * N + x < g._values.length := by
    rw [hlen]
    exact cell_index_lt N x y hx hy
  have e : (applyMono8 blank g).2.sample x y = g._values.getD (y * N + x) 0 := by
    show (applyLoops g._size (fun i j img => img.assign i j (cellAt g i j))
      (Image2D.allocate blank g._size g._size)).sample x y = _
    rw [hs, hsize, Int.toNat_ofNat, if_pos ⟨hx, hy⟩, cellAt_eq g N x y hsize]
  rw [e, List.getD_eq_getElem _ 0 hidx, List.getElem?_eq_getElem hidx]

theorem applyMono8_copies_witness :
    (applyMono8 (fun _ _ => 0) fixture2).1 = fixture2 ∧
    (applyMono8 (fun _ _ => 0) fixture2).2.width = (2 : Nat) ∧
    (applyMono8 (fun _ _ => 0) fixture2).2.height = (2 : Nat) ∧
    ∀ x y, x < 2 → y < 2 →
      fixture2._values[y * 2 + x]? = some ((applyMono8 (fun _ _ => 0) fixture2).2.sample x y) :=
  applyMono8_copies (fun _ _ => 0) fixture2 2 (by decide) rfl rfl

/-- C13. The export to an RGBA image, `apply( pr::Image2DRGBA32& )`: for every grid of
size `N ≥ 1` the image after the call is `N × N` and its sample at `(x, y)`, for `x < N`
and `y < N`, is `(v, v, v, 1)` with `v` the grid byte at index `y·N + x` as a number
between 0 and 255, not divided by 255; the grid is not modified. -/
theorem applyRGBA32_raw {ρ : Type} (blank : Nat → Nat → Vec4) (g : BlueNoiseGenerator ρ)
    (N : Nat) (_hN : 1 ≤ N) (hsize : g._size = N) (hlen : g._values.length = N * N) :
    (applyRGBA32 blank g).1 = g ∧
    (applyRGBA32 blank g).2.width = N ∧ (applyRGBA32 blank g).2.height = N ∧
    ∀ x y, x < N → y < N →
      ∃ v : Byte, g._values[y * N + x]? = some v ∧
        (applyRGBA32 blank g).2.sample x y = ⟨(v.val : ℚ), (v.val : ℚ), (v.val : ℚ), 1⟩ ∧
        (0 : ℚ) ≤ (v.val : ℚ) ∧ (v.val : ℚ) ≤ 255 := by
  obtain ⟨hw, hh, hs⟩ := applyLoops_assign g._size
    (fun i j => (⟨((cellAt g i j).val : ℚ), ((cellAt g i j).val : ℚ),
      ((cellAt g i j).val : ℚ), 1⟩ : Vec4))
    (Image2D.allocate blank g._size g._size)
  refine ⟨rfl, hw.trans hsize, hh.trans hsize, ?_⟩
  intro x y hx hy
  have hidx : y * N + x < g._values.length := by
    rw [hlen]
    exact cell_index_lt N x y hx hy
  have hc : cellAt g x y = g._values[y * N + x] := by
    rw [cellAt_eq g N x y hsize, List.getD_eq_getElem _ 0 hidx]
  refine ⟨g._values[y * N + x], List.getElem?_eq_getElem hidx, ?_, Nat.cast_nonneg _, ?_⟩
  · show (applyLoops g._size
      (fun i j img => img.assign i j (⟨((cellAt g i j).val : ℚ), ((cellAt g i j).val : ℚ),
        ((cellAt g i j).val : ℚ), 1⟩ : Vec4))
      (Image2D.allocate blank g._size g._size)).sample x y = _
    rw [hs, hsize, Int.toNat_ofNat, if_pos ⟨hx, hy⟩, hc]
  · have h := (g._values[y * N + x]).isLt
    have h2 : (g._values[y * N + x]).val ≤ 255 := by omega
    exact_mod_cast h2

theorem applyRGBA32_raw_witness :
    (applyRGBA32 (fun _ _ => ⟨0, 0, 0, 0⟩) fixture2).1 = fixture2 ∧
    (applyRGBA32 (fun _ _ => ⟨0, 0, 0, 0⟩) fixture2).2.width = (2 : Nat) ∧
    (applyRGBA32 (fun _ _ => ⟨0, 0, 0, 0⟩) fixture2).2.height = (2 : Nat) ∧
    ∀ x y, x < 2 → y < 2 →
      ∃ v : Byte, fixture2._values[y * 2 + x]? = some v ∧
        (applyRGBA32 (fun _ _ => ⟨0, 0, 0, 0⟩) fixture2).2.sample x y
          = ⟨(v.val : ℚ), (v.val : ℚ), (v.val : ℚ), 1⟩ ∧
        (0 : ℚ) ≤ (v.val : ℚ) ∧ (v.val : ℚ) ≤ 255 :=
  applyRGBA32_raw (fun _ _ => ⟨0, 0, 0, 0⟩) fixture2 2 (by decide) rfl rfl

/-- C14. Revert idempotence: for every grid and every two valid indices `a` and `b`,
equal or not, swapping the values at `a` and `b` twice in succession gives a grid equal to
the original at every index. -/
theorem swap_twice_restores (values : List Byte) (a b : Nat) (ha : a < values.length)
    (hb : b < values.length) :
    swapValues (swapValues values a b) a b = values ∧
    ∀ k : Nat, (swapValues (swapValues values a b) a b)[k]? = values[k]? := by
  have h := swapValues_swapValues values a b ha hb
  exact ⟨h, fun k => by rw [h]⟩

theorem swap_twice_restores_witness :
    (1 < fixture2._values.length ∧ 3 < fixture2._values.length) ∧
    (swapValues (swapValues fixture2._values 1 3) 1 3 = fixture2._values ∧
      ∀ k : Nat, (swapValues (swapValues fixture2._values 1 3) 1 3)[k]? = fixture2._values[k]?) :=
  ⟨by decide, swap_twice_restores fixture2._values 1 3 (by decide) (by decide)⟩

/-- C15. The accept/revert rule of one pass: for every non-empty grid, every tracked
`currentE` and every drawn pair `a ≠ b`, with `newE` the value `E()` returns for the grid
with the cells `a` and `b` swapped: if `newE < currentE` the swap is kept and `currentE`
becomes `newE`; otherwise, `newE = currentE` included, the grid is exactly the grid before
the pass and `currentE` is unchanged.  A line is printed if and only if `newE < currentE`,
and a swap that changes the grid is retained if and only if `newE < currentE`.  The rule
holds in every arithmetic in which `E()` is computed: for every ordered type of energies,
every addition and every summand. -/
theorem trial_accept_iff_strictly_lower {ρ α : Type} [Preorder α]
    [DecidableRel (fun a b : α => a < b)] [Add α] [Zero α] (uniformi : ρ → Nat × ρ)
    (term : Int → Int → α) (s : StepState ρ α) (hne : s.gen._values ≠ [])
    (hab : (drawIndices uniformi s.gen).1 ≠ (drawIndices uniformi s.gen).2) :
    ∃ s', trial uniformi term s = some s' ∧ s'.gen._size = s.gen._size ∧
      (E term (swappedGrid uniformi s.gen) < s.currentE →
        s'.gen._values = (swappedGrid uniformi s.gen)._values ∧
        s'.currentE = E term (swappedGrid uniformi s.gen)) ∧
      (¬ E term (swappedGrid uniformi s.gen) < s.currentE →
        s'.gen._values = s.gen._values ∧ s'.currentE = s.currentE ∧ s'.flips = s.flips) ∧
      (s.currentE ≤ E term (swappedGrid uniformi s.gen) →
        s'.gen._values = s.gen._values ∧ s'.currentE = s.currentE ∧ s'.flips = s.flips) ∧
      (s'.flips = s.flips ++ [⟨s.currentE, E term (swappedGrid uniformi s.gen),
          (drawIndices uniformi s.gen).1, (drawIndices uniformi s.gen).2⟩] ↔
        E term (swappedGrid uniformi s.gen) < s.currentE) ∧
      ((swappedGrid uniformi s.gen)._values ≠ s.gen._values →
        (s'.gen._values = (swappedGrid uniformi s.gen)._values ↔
          E term (swappedGrid uniformi s.gen) < s.currentE)) := by
  have hlen : s.gen._values.length ≠ 0 := fun h0 => hne (List.length_eq_zero.mp h0)
  have hE : E term { s.gen with
        _values := swapValues s.gen._values (drawIndices uniformi s.gen).1
          (drawIndices uniformi s.gen).2,
        _random := (uniformi (uniformi s.gen._random).2).2 }
      = E term (swappedGrid uniformi s.gen) :=
    E_congr term _ _ rfl rfl
  refine ⟨_, trial_eq uniformi term s hlen, ?_⟩
  rw [if_neg hab, hE]
  by_cases hlt : E term (swappedGrid uniformi s.gen) < s.currentE
  · rw [if_pos hlt]
    exact ⟨rfl, fun _ => ⟨rfl, rfl⟩, fun hn => absurd hlt hn,
      fun hle => absurd hlt (not_lt_of_le hle),
      ⟨fun _ => hlt, fun _ => rfl⟩, fun _ => ⟨fun _ => hlt, fun _ => rfl⟩⟩
  · rw [if_neg hlt]
    refine ⟨rfl, fun h => absurd h hlt, fun _ => ⟨rfl, rfl, rfl⟩, fun _ => ⟨rfl, rfl, rfl⟩,
      ⟨fun h => ?_, fun h => absurd h hlt⟩,
      fun hchg => ⟨fun h => absurd h.symm hchg, fun h => absurd h hlt⟩⟩
    have hl := congrArg List.length h
    simp at hl

theorem trial_accept_iff_strictly_lower_witness :
    ∃ s', trial lcg contribution
        (⟨⟨2, [10, 20, 30, 40], 2⟩, 5, [], 1⟩ : StepState Nat ℝ) = some s' ∧
      s'.gen._size = 2 ∧
      (E contribution (swappedGrid lcg ⟨2, [10, 20, 30, 40], 2⟩) < 5 →
        s'.gen._values = (swappedGrid lcg ⟨2, [10, 20, 30, 40], 2⟩)._values ∧
        s'.currentE = E contribution (swappedGrid lcg ⟨2, [10, 20, 30, 40], 2⟩)) ∧
      (¬ E contribution (swappedGrid lcg ⟨2, [10, 20, 30, 40], 2⟩) < 5 →
        s'.gen._values = [10, 20, 30, 40] ∧ s'.currentE = 5 ∧ s'.flips = []) ∧
      ((5 : ℝ) ≤ E contribution (swappedGrid lcg ⟨2, [10, 20, 30, 40], 2⟩) →
        s'.gen._values = [10, 20, 30, 40] ∧ s'.currentE = 5 ∧ s'.flips = []) ∧
      (s'.flips = [] ++ [⟨5, E contribution (swappedGrid lcg ⟨2, [10, 20, 30, 40], 2⟩),
          (drawIndices lcg ⟨2, [10, 20, 30, 40], 2⟩).1,
          (drawIndices lcg ⟨2, [10, 20, 30, 40], 2⟩).2⟩] ↔
        E contribution (swappedGrid lcg ⟨2, [10, 20, 30, 40], 2⟩) < 5) ∧
      ((swappedGrid lcg ⟨2, [10, 20, 30, 40], 2⟩)._values ≠ [10, 20, 30, 40] →
        (s'.gen._values = (swappedGrid lcg ⟨2, [10, 20, 30, 40], 2⟩)._values ↔
          E contribution (swappedGrid lcg ⟨2, [10, 20, 30, 40], 2⟩) < 5)) :=
  trial_accept_iff_strictly_lower lcg contribution
    (⟨⟨2, [10, 20, 30, 40], 2⟩, 5, [], 1⟩ : StepState Nat ℝ) (by decide) (by decide)

/-- C16. Toroidal wrap magnitude: for every `N ≥ 1` and coordinates `a`, `b` in `[0, N)`,
when `|b - a| > N / 2` (integer division) the wrapped difference computed in `E()` has
magnitude exactly `N - |b - a|`, and when `|b - a| ≤ N / 2` it is the raw `b - a`. -/
theorem wrap_magnitude (N a b : Nat) (_hN : 1 ≤ N) (ha : a < N) (hb : b < N) :
    ((N : Int) / 2 < |(b : Int) - a| → |wrap N a b| = (N : Int) - |(b : Int) - a|) ∧
    (|(b : Int) - a| ≤ (N : Int) / 2 → wrap N a b = (b : Int) - a) := by
  rw [wrap_eq N a b, ← Int.natCast_natAbs ((b : Int) - a)]
  constructor
  · intro h
    rw [if_pos (by omega), ← Int.natCast_natAbs]
    omega
  · intro h
    rw [if_neg (by omega)]

theorem wrap_magnitude_witness :
    ((1 : Nat) ≤ 5 ∧ (0 : Nat) < 5 ∧ (4 : Nat) < 5) ∧
    (((5 : Nat) : Int) / 2 < |((4 : Nat) : Int) - (0 : Nat)| →
      |wrap (5 : Nat) (0 : Nat) (4 : Nat)| = ((5 : Nat) : Int) - |((4 : Nat) : Int) - (0 : Nat)|) ∧
    (|((4 : Nat) : Int) - (0 : Nat)| ≤ ((5 : Nat) : Int) / 2 →
      wrap (5 : Nat) (0 : Nat) (4 : Nat) = ((4 : Nat) : Int) - (0 : Nat)) :=
  ⟨by decide, wrap_magnitude 5 0 4 (by decide) (by decide) (by decide)⟩

/-- C17. Operand-order asymmetry of the sign: there are `N` and coordinates `a`, `b` in
`[0, N)` with `wrap(b, a) ≠ -wrap(a, b)`: whenever `|b - a| > N / 2` the wrap branch gives
the same negative number for both operand orders. -/
theorem wrap_sign_asymmetric :
    (∃ N a b : Nat, a < N ∧ b < N ∧ wrap N b a ≠ -wrap N a b) ∧
    (∀ N a b : Nat, a < N → b < N → (N : Int) / 2 < |(b : Int) - a| →
      wrap N a b < 0 ∧ wrap N b a < 0 ∧ wrap N b a = wrap N a b ∧
      wrap N b a ≠ -wrap N a b) := by
  have hall : ∀ N a b : Nat, a < N → b < N → (N : Int) / 2 < |(b : Int) - a| →
      wrap N a b < 0 ∧ wrap N b a < 0 ∧ wrap N b a = wrap N a b ∧
      wrap N b a ≠ -wrap N a b := by
    intro N a b ha hb h
    rw [← Int.natCast_natAbs ((b : Int) - a)] at h
    rw [wrap_eq N a b, wrap_eq N b a, if_pos (by omega), if_pos (by omega)]
    omega
  refine ⟨⟨5, 0, 4, by decide, by decide, ?_⟩, hall⟩
  exact (hall 5 0 4 (by decide) (by decide) (by decide)).2.2.2

theorem wrap_sign_asymmetric_witness :
    ((0 : Nat) < 5 ∧ (4 : Nat) < 5 ∧ ((5 : Nat) : Int) / 2 < |((4 : Nat) : Int) - (0 : Nat)|) ∧
    (wrap (5 : Nat) (0 : Nat) (4 : Nat) < 0 ∧ wrap (5 : Nat) (4 : Nat) (0 : Nat) < 0 ∧
      wrap (5 : Nat) (4 : Nat) (0 : Nat) = wrap (5 : Nat) (0 : Nat) (4 : Nat) ∧
      wrap (5 : Nat) (4 : Nat) (0 : Nat) ≠ -wrap (5 : Nat) (0 : Nat) (4 : Nat)) :=
  ⟨by decide, wrap_sign_asymmetric.2 5 0 4 (by decide) (by decide) (by decide)⟩

/-- C18. Improvement events of `step()`: for every non-empty grid and every generator
state, one `step()` call prints at most 16 lines; each line `(currentE, newE, a, b)` has
`a ≠ b` and `newE < currentE`; the first line's `currentE` is the energy of the grid at
entry, each later line's `currentE` is the previous line's `newE`, and the energy of the
grid at exit is the last line's `newE`, or the energy at entry when nothing is printed.
The energies are the values `E()` returns, in whatever arithmetic it is computed: the
statement holds for every ordered type of energies, every addition and every summand. -/
theorem step_improvement_events {ρ α : Type} [Preorder α]
    [DecidableRel (fun a b : α => a < b)] [Add α] [Zero α] (uniformi : ρ → Nat × ρ)
    (term : Int → Int → α) (g : BlueNoiseGenerator ρ) (hne : g._values ≠ []) :
    ∃ s', stepRun uniformi term g = some s' ∧
      s'.flips.length ≤ 16 ∧
      (∀ f ∈ s'.flips, f.a ≠ f.b ∧ f.newE < f.currentE) ∧
      (∀ f ∈ s'.flips.head?, f.currentE = E term g) ∧
      s'.flips.Chain' (fun p q => q.currentE = p.newE) ∧
      E term s'.gen = (s'.flips.getLast?.map Flip.newE).getD (E term g) := by
  obtain ⟨s', h, n, hE, hall, hhead, hchain, hlast⟩ :=
    trials_flips uniformi term (E term g) 16
      { gen := g, currentE := E term g, flips := [], evals := 1 }
      (fun h0 => hne (List.length_eq_zero.mp h0)) rfl
      (fun f hf => absurd hf (List.not_mem_nil f))
      (fun f hf => by simp at hf) List.chain'_nil rfl
  refine ⟨s', h, ?_, hall, hhead, hchain, hE ▸ hlast⟩
  simpa using n

theorem step_improvement_events_witness :
    fixture2._values ≠ [] ∧
    ∃ s', stepRun lcg contribution fixture2 = some s' ∧
      s'.flips.length ≤ 16 ∧
      (∀ f ∈ s'.flips, f.a ≠ f.b ∧ f.newE < f.currentE) ∧
      (∀ f ∈ s'.flips.head?, f.currentE = E contribution fixture2) ∧
      s'.flips.Chain' (fun p q => q.currentE = p.newE) ∧
      E contribution s'.gen
        = (s'.flips.getLast?.map Flip.newE).getD (E contribution fixture2) :=
  ⟨by decide, step_improvement_events lcg contribution fixture2 (by decide)⟩

/-- C19. In-range trial indices: for every grid with at least one cell and every pair of
draws, the divisor of the modulo is not zero, the indices `a` and `b` of the pass are
below the number of cells, the swap reads and writes existing cells only, the vector
keeps its length so that the revert is in range too, and the pass returns. -/
theorem trial_indices_in_range {ρ : Type} (uniformi : ρ → Nat × ρ)
    (g : BlueNoiseGenerator ρ) (hne : g._values ≠ []) :
    g._values.length ≠ 0 ∧
    (drawIndices uniformi g).1 < g._values.length ∧
    (drawIndices uniformi g).2 < g._values.length ∧
    (∃ va vb : Byte, g._values[(drawIndices uniformi g).1]? = some va ∧
      g._values[(drawIndices uniformi g).2]? = some vb ∧
      (swappedGrid uniformi g)._values
        = (g._values.set (drawIndices uniformi g).1 vb).set (drawIndices uniformi g).2 va) ∧
    (drawIndices uniformi g).1 < (swappedGrid uniformi g)._values.length ∧
    (drawIndices uniformi g).2 < (swappedGrid uniformi g)._values.length ∧
    (∀ (e : ℝ) (flips : List (Flip ℝ)) (evals : Nat),
      ∃ s', trial uniformi contribution ⟨g, e, flips, evals⟩ = some s') := by
  have hlen : g._values.length ≠ 0 := fun h0 => hne (List.length_eq_zero.mp h0)
  obtain ⟨ha, hb⟩ := drawIndices_lt uniformi g hlen
  refine ⟨hlen, ha, hb, ⟨g._values[(drawIndices uniformi g).1],
    g._values[(drawIndices uniformi g).2], List.getElem?_eq_getElem ha,
    List.getElem?_eq_getElem hb, ?_⟩, ?_, ?_, ?_⟩
  · show swapValues g._values _ _ = _
    unfold swapValues
    rw [List.getD_eq_getElem _ 0 ha, List.getD_eq_getElem _ 0 hb]
  · show _ < (swapValues g._values _ _).length
    rw [swapValues_length]
    exact ha
  · show _ < (swapValues g._values _ _).length
    rw [swapValues_length]
    exact hb
  · intro e flips evals
    exact ⟨_, trial_eq uniformi contribution ⟨g, e, flips, evals⟩ hlen⟩

theorem trial_indices_in_range_witness :
    fixture2._values ≠ [] ∧
    (drawIndices lcg fixture2).1 < fixture2._values.length ∧
    (drawIndices lcg fixture2).2 < fixture2._values.length :=
  ⟨by decide, (trial_indices_in_range lcg fixture2 (by decide)).2.1,
    (trial_indices_in_range lcg fixture2 (by decide)).2.2.1⟩

/-- C20. Agreement with the canonical toroidal distance: for every `N ≥ 1` and all
coordinates `a`, `b` in `[0, N)` the square of the wrapped difference computed in `E()` is
`min(|b - a|, N - |b - a|)²`, the same for `(a, b)` and `(b, a)`; hence for a grid of size
`N` the squared displacement and the pair contribution of two cells do not depend on their
order. -/
theorem wrap_sq_canonical (N : Nat) (hN : 1 ≤ N) :
    (∀ a b : Nat, a < N → b < N →
      wrap N a b ^ 2
        = ((min (Int.natAbs ((b : Int) - a)) (N - Int.natAbs ((b : Int) - a)) : Nat) : Int) ^ 2 ∧
      wrap N a b ^ 2 = ((torusDist N a b : Nat) : Int) ^ 2 ∧
      wrap N a b ^ 2 = wrap N b a ^ 2) ∧
    (∀ {ρ : Type} (g : BlueNoiseGenerator ρ) (i j : Nat), g._size = N →
      i < N * N → j < N * N →
      sqDist g._size i j = sqDist g._size j i ∧
      pairTerm contribution g i j = pairTerm contribution g j i) := by
  constructor
  · intro a b ha hb
    have h1 : wrap N a b ^ 2 = ((torusDist N a b : Nat) : Int) ^ 2 := by
      rw [sq, wrap_mul_self N a b ha hb]
      push_cast
      rfl
    have h2 : wrap N b a ^ 2 = ((torusDist N b a : Nat) : Int) ^ 2 := by
      rw [sq, wrap_mul_self N b a hb ha]
      push_cast
      rfl
    refine ⟨h1, h1, ?_⟩
    rw [h1, h2, torusDist_comm]
  · intro ρ g i j hsize hi hj
    constructor
    · rw [hsize, sqDist_eq N i j hN hi hj, sqDist_eq N j i hN hj hi,
        torusDist_comm N (i % N), torusDist_comm N (i / N)]
    · rw [pairTerm_eq_ref contribution g N i j hN hsize hi hj,
        pairTerm_eq_ref contribution g N j i hN hsize hj hi,
        refPairTerm_comm contribution contribution_neg]

theorem wrap_sq_canonical_witness :
    ((1 : Nat) ≤ 5 ∧ (0 : Nat) < 5 ∧ (4 : Nat) < 5) ∧
    (wrap (5 : Nat) (0 : Nat) (4 : Nat) ^ 2
        = ((min (Int.natAbs (((4 : Nat) : Int) - (0 : Nat)))
            (5 - Int.natAbs (((4 : Nat) : Int) - (0 : Nat))) : Nat) : Int) ^ 2 ∧
      wrap (5 : Nat) (0 : Nat) (4 : Nat) ^ 2 = ((torusDist 5 0 4 : Nat) : Int) ^ 2 ∧
      wrap (5 : Nat) (0 : Nat) (4 : Nat) ^ 2 = wrap (5 : Nat) (4 : Nat) (0 : Nat) ^ 2) :=
  ⟨by decide, (wrap_sq_canonical 5 (by decide)).1 0 4 (by decide) (by decide)⟩

end BlueNoise
